import Mathlib

set_option maxHeartbeats 1000000
set_option linter.unreachableTactic false
set_option linter.unusedTactic false
set_option linter.unusedVariables false

namespace Pyboost

/--
The configuration Tree of `pyboost/config.py`: a `Config` wraps a plain Python
value built from dicts with string keys, lists, and scalars (`str`, numbers,
booleans, `None`).  Numbers are modelled as integers; no claim exercises
floating point.
-/
inductive JValue where
  | null
  | bool (b : Bool)
  | num (n : Int)
  | str (s : String)
  | arr (items : List JValue)
  | obj (entries : List (String × JValue))

/-- Python's `x is None` test. -/
def JValue.isNull : JValue → Bool
  | JValue.null => true
  | _ => false

/--
The message families of `ConfigException` raised by `pyboost/config.py`
(`no config found for key "…"`, `index out of range: …`, `illegal slice […]`,
`bad substitution variable reference …`, `can not substitute composite type`).
-/
inductive ErrKind where
  | keyNotFound
  | indexOutOfRange
  | illegalSlice
  | badSubstitution
  | compositeSubstitution
  deriving Repr, DecidableEq

/--
Failure outcomes of the modelled code: a `ConfigException` with one of the
message families above, Python's `RecursionError` (native stack exhaustion),
`StopIteration` (from `next` on an exhausted generator), and `hang`, which
marks inputs on which the source's `parse` generator loops forever without
yielding (a lone `$` not followed by `$` or `{`).
-/
inductive PyErr where
  | configEx (kind : ErrKind)
  | recursionError
  | stopIteration
  | hang
  deriving Repr, DecidableEq

/-- Python dict membership/lookup `path in root` / `root.get(path)` on the model. -/
def lookupJ (k : String) : List (String × JValue) → Option JValue
  | [] => none
  | (k2, v) :: rest => if k2 = k then some v else lookupJ k rest

/-- Model of Python `key.replace('[', '.[')` at the character level. -/
def expandBrackets : List Char → List Char
  | [] => []
  | c :: rest => if c = '[' then '.' :: '[' :: expandBrackets rest else c :: expandBrackets rest

/-- Model of Python `s.split(sep)` for a one-character separator. -/
def splitOnChar (sep : Char) : List Char → List (List Char)
  | [] => [[]]
  | c :: rest =>
    let r := splitOnChar sep rest
    if c = sep then [] :: r
    else (c :: r.headD []) :: r.tail

/-- The node list of `Config.get`: `key.replace('[', '.[').split('.')`. -/
def splitPath (key : String) : List (List Char) :=
  splitOnChar '.' (expandBrackets key.data)

/-- Decimal digit test used by the models of `int(...)` below. -/
def isDigitCh (c : Char) : Bool :=
  if '0' ≤ c ∧ c ≤ '9' then true else false

/-- Value of a decimal digit character. -/
def digitVal (c : Char) : Nat := c.toNat - 48

/-- Left fold over decimal digits; fails on the first non-digit. -/
def parseDigits (acc : Nat) : List Char → Option Nat
  | [] => some acc
  | c :: rest => if isDigitCh c then parseDigits (acc * 10 + digitVal c) rest else none

/--
Model of Python `int(s)`: an optional sign followed by at least one decimal
digit.  (Python additionally strips whitespace and allows `_` digit grouping;
no bracket path of the claims uses those, so they are not modelled.)
-/
def pyParseInt : List Char → Option Int
  | [] => none
  | c :: rest =>
    if c = '-' then
      if rest = [] then none else (parseDigits 0 rest).map (fun n => -(n : Int))
    else if c = '+' then
      if rest = [] then none else (parseDigits 0 rest).map (fun n => (n : Int))
    else (parseDigits 0 (c :: rest)).map (fun n => (n : Int))

/--
Model of `re.match(r'^[-0-9]*:[-0-9]*:?[-0-9]*$', s)`: the pattern accepts
exactly the strings over the characters `-`, `0`–`9`, `:` that contain one or
two colons.
-/
def sliceRegexMatch (cs : List Char) : Bool :=
  cs.all (fun c => c = ':' || c = '-' || isDigitCh c) &&
  (cs.count ':' == 1 || cs.count ':' == 2)

/--
Model of `[int(x) if x else None for x in (path + ':::').split(':')[:3]]`;
`none` is a `ValueError` from `int` (caught as `illegal slice` by the caller).
-/
def sliceParams (cs : List Char) : Option (Option Int × Option Int × Option Int) :=
  match (splitOnChar ':' (cs ++ [':', ':', ':'])).take 3 with
  | [a, b, c] => do
    let pa ← if a = [] then some none else (pyParseInt a).map some
    let pb ← if b = [] then some none else (pyParseInt b).map some
    let pc ← if c = [] then some none else (pyParseInt c).map some
    some (pa, pb, pc)
  | _ => none

/--
Model of Python list slicing `l[start:stop:step]` (CPython's
`PySlice_AdjustIndices` semantics); `none` is the `ValueError` raised for a
zero step.
-/
def pySlice (l : List JValue) (ostart ostop ostep : Option Int) :
    Option (List JValue) :=
  let step := ostep.getD 1
  if step = 0 then none
  else
    let n : Int := l.length
    if 0 < step then
      let start := match ostart with
        | none => 0
        | some s => if s < 0 then max (s + n) 0 else min s n
      let stop := match ostop with
        | none => n
        | some s => if s < 0 then max (s + n) 0 else min s n
      let count := if start < stop then ((stop - start - 1) / step + 1).toNat else 0
      some ((List.range count).map (fun j => l.getD (start + j * step).toNat JValue.null))
    else
      let start := match ostart with
        | none => n - 1
        | some s => if s < 0 then max (s + n) (-1) else min s (n - 1)
      let stop := match ostop with
        | none => -1
        | some s => if s < 0 then max (s + n) (-1) else min s (n - 1)
      let count := if stop < start then ((start - stop - 1) / (-step) + 1).toNat else 0
      some ((List.range count).map (fun j => l.getD (start + j * step).toNat JValue.null))

/-- Python list indexing `l[i]` with negative-index support; `none` is `IndexError`. -/
def pyIndex (l : List JValue) (i : Int) : Option JValue :=
  let j := if i < 0 then (l.length : Int) + i else i
  if 0 ≤ j ∧ j < (l.length : Int) then some (l.getD j.toNat JValue.null) else none

/--
The inner `traverse(root, nodes)` of `Config.get`: pop path segments one by
one; descend into dict keys; on a list, a `[...]` segment is either a slice
(broadcasting the remaining segments over every element of the sliced
sub-list) or an integer index; anything else raises
`no config found for key "…"`.
-/
def traverse (root : JValue) : List (List Char) → Except PyErr JValue
  | [] => .ok root
  | path :: rest =>
    match root with
    | JValue.obj xs =>
      match lookupJ (String.mk path) xs with
      | some v => traverse v rest
      | none => .error (.configEx .keyNotFound)
    | JValue.arr l =>
      if path.head? = some '[' ∧ path.getLast? = some ']' then
        let inner := (path.drop 1).dropLast
        if sliceRegexMatch inner = true ∨ inner = [] then
          match sliceParams inner with
          | none => .error (.configEx .illegalSlice)
          | some (a, b, c) =>
            match pySlice l a b c with
            | none => .error (.configEx .illegalSlice)
            | some elems => (elems.mapM (fun x => traverse x rest)).map JValue.arr
        else
          match pyParseInt inner with
          | none => .error (.configEx .illegalSlice)
          | some i =>
            match pyIndex l i with
            | none => .error (.configEx .indexOutOfRange)
            | some v => traverse v rest
      else .error (.configEx .keyNotFound)
    | _ => .error (.configEx .keyNotFound)

/--
`Config.get(key, default)`:
`Option.of_nullable(traverse(self.__root, key.replace('[', '.[').split('.'))).or_else(default)`.
A `ConfigException` raised by `traverse` propagates (there is no handler in
`get`); a `None` result is replaced by `default`.
-/
def Config.get (root : JValue) (key : String) (default : JValue) :
    Except PyErr JValue :=
  match traverse root (splitPath key) with
  | .error e => .error e
  | .ok v => .ok (if v.isNull then default else v)

/-- `Config.get(key)` without a default: `default` is Python `None`. -/
def Config.get1 (root : JValue) (key : String) : Except PyErr JValue :=
  Config.get root key JValue.null

/-! ## Config.with_fallback -/

/-- `sizeOf` of an association-list lookup is bounded by the list's `sizeOf`. -/
theorem sizeOf_lookupJ_le (k : String) :
    ∀ ys : List (String × JValue), sizeOf (lookupJ k ys) ≤ sizeOf ys := by
  intro ys
  induction ys with
  | nil => simp [lookupJ]
  | cons p rest ih =>
    obtain ⟨k2, v⟩ := p
    simp only [lookupJ]
    split
    · simp; omega
    · simp; omega

mutual

/--
One yielded pair of `Config.with_fallback`'s inner `merge` for a key of
`dict1`: if the key is also in `dict2` and both values are dicts, the values
are merged recursively with `use_dict2 = True` (the body of `merge` at `true`
is inlined here so that the recursion is structural in the left value);
otherwise the left value wins.
-/
def mergeVal : JValue → Option JValue → JValue
  | JValue.obj a, some (JValue.obj b) =>
    JValue.obj (mergeLeft a b ++ b.filter (fun p => (lookupJ p.1 a).isNone))
  | v, _ => v

/-- The keys of `dict1`, in order, merged against `dict2`. -/
def mergeLeft : List (String × JValue) → List (String × JValue) →
    List (String × JValue)
  | [], _ => []
  | (k, v) :: rest, ys => (k, mergeVal v (lookupJ k ys)) :: mergeLeft rest ys

end

/--
The inner `merge(dict1, dict2, use_dict2)` of `Config.with_fallback`.  The
source iterates `set(dict1) | set(dict2)` in an unspecified order and the
`Config` equality that the spec's claims use (`dict.__eq__`) ignores key
order, so the model fixes the representative order: keys of `dict1` first (in
their order), then the keys only in `dict2` (kept only when `use_dict2`).
-/
def merge (xs ys : List (String × JValue)) (useDict2 : Bool) :
    List (String × JValue) :=
  mergeLeft xs ys ++
    (if useDict2 then ys.filter (fun p => (lookupJ p.1 xs).isNone) else [])

/-- The recursive call of the source's `merge` is `merge(d1[k], d2[k], True)`. -/
theorem mergeVal_obj_obj (a b : List (String × JValue)) :
    mergeVal (JValue.obj a) (some (JValue.obj b)) = JValue.obj (merge a b true) := rfl

/--
`Config.with_fallback(other, fill_missing)` on the wrapped dict roots:
`Config(dict(merge(self.__root, other.__root, fill_missing)))`.
-/
def Config.with_fallback (root other : List (String × JValue))
    (fill_missing : Bool) : List (String × JValue) :=
  merge root other fill_missing

/-- Keys of a Python dict model are unique: no key occurs twice. -/
def noDupKeys : List (String × JValue) → Bool
  | [] => true
  | (k, _) :: rest => (lookupJ k rest).isNone && noDupKeys rest

mutual

/-- Well-formedness of a value as a Python object: every dict has unique keys. -/
def JWF : JValue → Bool
  | JValue.obj xs => noDupKeys xs && JWFEntries xs
  | JValue.arr l => JWFList l
  | _ => true

/-- `JWF` on every value of an entry list. -/
def JWFEntries : List (String × JValue) → Bool
  | [] => true
  | (_, v) :: rest => JWF v && JWFEntries rest

/-- `JWF` on every element of a list. -/
def JWFList : List JValue → Bool
  | [] => true
  | v :: rest => JWF v && JWFList rest

end

/-! ## Decimal numerals (Python `str` of integers, and `int` round-trips) -/

/-- The character of a decimal digit. -/
def digitChar (d : Nat) : Char := Char.ofNat (48 + d)

/-- Digits of `n`, most significant first; `fuel` bounds the recursion. -/
def natDecimalAux : Nat → Nat → List Char
  | 0, _ => []
  | Nat.succ fuel, n =>
    if n < 10 then [digitChar n]
    else natDecimalAux fuel (n / 10) ++ [digitChar (n % 10)]

/-- Decimal numeral of a natural number. -/
def natDecimal (n : Nat) : List Char := natDecimalAux (n + 1) n

/-- Model of Python `str(i)` for an integer. -/
def intRepr (i : Int) : String :=
  if i < 0 then String.mk ('-' :: natDecimal (-i).toNat)
  else String.mk (natDecimal i.toNat)

/-! ## Python str()/repr() as used by the resolver's string coercion -/

mutual

/-- Model of Python `repr(value)` for the modelled values. -/
def pyRepr : JValue → String
  | JValue.null => "None"
  | JValue.bool b => if b then "True" else "False"
  | JValue.num n => intRepr n
  | JValue.str s => "\x27" ++ s ++ "\x27"
  | JValue.arr l => "[" ++ pyReprList l ++ "]"
  | JValue.obj xs => "\x7b" ++ pyReprEntries xs ++ "\x7d"

/-- `", "`-separated `repr`s of list elements. -/
def pyReprList : List JValue → String
  | [] => ""
  | [v] => pyRepr v
  | v :: rest => pyRepr v ++ ", " ++ pyReprList rest

/-- `", "`-separated `repr(key): repr(value)` pairs of dict entries. -/
def pyReprEntries : List (String × JValue) → String
  | [] => ""
  | [(k, v)] => "\x27" ++ k ++ "\x27: " ++ pyRepr v
  | (k, v) :: rest => "\x27" ++ k ++ "\x27: " ++ pyRepr v ++ ", " ++ pyReprEntries rest

end

/-- Model of Python `str(value)`: strings unchanged, all else via `repr`. -/
def pyStr : JValue → String
  | JValue.str s => s
  | v => pyRepr v

/-! ## The placeholder resolver (ConfigValueReferenceResolver) -/

/-- The character `\x7b`, written out to keep braces out of string literals. -/
def lbrace : Char := '\x7b'

/-- The character `\x7d`. -/
def rbrace : Char := '\x7d'

/-- Index of the first occurrence of `needle` (nonempty), Python `str.find`. -/
def findSub (needle : List Char) : List Char → Option Nat
  | [] => none
  | c :: rest =>
    if needle.isPrefixOf (c :: rest) then some 0
    else (findSub needle rest).map (· + 1)

/--
The `test` predicate of `ConfigValueReferenceResolver`:
`lambda x: '${' in x and '}' in x and x.index('${') < x.index('}')`.
-/
def ConfigValueReferenceResolver.test (cs : List Char) : Bool :=
  match findSub ['$', lbrace] cs, findSub [rbrace] cs with
  | some i, some j => decide (i < j)
  | _, _ => false

/-- Python `s.split(sep, 1)`: split at the first occurrence only. -/
def splitOnceChar (sep : Char) : List Char → Option (List Char × List Char)
  | [] => none
  | c :: rest =>
    if c = sep then some ([], rest)
    else (splitOnceChar sep rest).map (fun p => (c :: p.1, p.2))

/--
Model of the resolver's `ast.literal_eval(default)` with string fallback:
int/bool/None literals are parsed, anything else falls back to the raw string
(no claim exercises float/list/dict default literals).
-/
def pyLiteralEval (cs : List Char) : JValue :=
  if cs = ['T', 'r', 'u', 'e'] then JValue.bool true
  else if cs = ['F', 'a', 'l', 's', 'e'] then JValue.bool false
  else if cs = ['N', 'o', 'n', 'e'] then JValue.null
  else match pyParseInt cs with
    | some n => JValue.num n
    | none => JValue.str (String.mk cs)

/-- The last pipe-delimited candidate with its optional `?default`. -/
def resolverGetLast (root : JValue) (seg : List Char) : Except PyErr JValue :=
  match splitOnceChar '?' seg with
  | none => Config.get1 root (String.mk seg)
  | some (path, dflt) =>
    match Config.get1 root (String.mk path) with
    | .ok v => .ok v
    | .error (.configEx _) => .ok (pyLiteralEval dflt)
    | .error e => .error e

/-- The pipe-delimited fallback chain: first candidate that does not raise wins. -/
def resolverGetChain (root : JValue) :
    List (List Char) → List Char → Except PyErr JValue
  | [], last => resolverGetLast root last
  | p :: rest, last =>
    match Config.get1 root (String.mk p) with
    | .ok v => .ok v
    | .error (.configEx _) => resolverGetChain root rest last
    | .error e => .error e

/-- The inner `get(expr)` of `ConfigValueReferenceResolver.resolve`. -/
def resolverGet (root : JValue) (expr : List Char) : Except PyErr JValue :=
  let segs := splitOnChar '|' expr
  resolverGetChain root segs.dropLast (segs.getLastD [])

/-- Yield the pending literal run, if nonempty, as one item. -/
def flushAcc (acc : List Char) : List JValue :=
  if acc = [] then [] else [JValue.str (String.mk acc)]

mutual

/--
The `parse(string)` generator of `ConfigValueReferenceResolver.resolve`,
scanning for `$`; `acc` is the literal run accumulated since the last yield
(the source yields `string[:pos]` in one piece, which is exactly this run).
-/
def parseLeaf (root : JValue) : List Char → List Char → Except PyErr (List JValue)
  | [], acc => .ok (flushAcc acc)
  | c :: rest, acc =>
    if c = '$' then parseDollar root rest acc
    else parseLeaf root rest (acc ++ [c])

/--
Continuation after a `$`: `$$` yields a literal `$`; `${` starts a reference;
anything else leaves the source's while-loop spinning forever on the same
state, modelled as the `hang` outcome.
-/
def parseDollar (root : JValue) : List Char → List Char → Except PyErr (List JValue)
  | [], _ => .error .hang
  | c :: rest, acc =>
    if c = '$' then
      match parseLeaf root rest [] with
      | .error e => .error e
      | .ok items => .ok (flushAcc acc ++ (JValue.str "$" :: items))
    else if c = lbrace then
      match parseRef root rest [] with
      | .error e => .error e
      | .ok items => .ok (flushAcc acc ++ items)
    else .error .hang

/--
Scan of the reference body after `${` up to the first `}` (the source's
regex `[^}]+` against the rest of the string); no `}` or an empty body is a
`bad substitution variable reference` ConfigException.  On success the
referenced value is yielded (`yield get(path)`) and scanning resumes.
-/
def parseRef (root : JValue) : List Char → List Char → Except PyErr (List JValue)
  | [], _ => .error (.configEx .badSubstitution)
  | c :: rest, body =>
    if c = rbrace then
      if body = [] then .error (.configEx .badSubstitution)
      else
        match resolverGet root body with
        | .error e => .error e
        | .ok v =>
          match parseLeaf root rest [] with
          | .error e => .error e
          | .ok items => .ok (v :: items)
    else parseRef root rest (body ++ [c])

end

/--
The result-accumulation loop of `ConfigValueReferenceResolver.resolve`
(config.py lines 444-450): the first item is taken as-is by `next(itr)`;
every later item is rejected if it is a dict or list
(`can not substitute composite type`) and otherwise concatenated through
`str(result) + str(item)`.
-/
def combineItems : JValue → List JValue → Except PyErr JValue
  | result, [] => .ok result
  | result, item :: rest =>
    match item with
    | JValue.obj _ => .error (.configEx .compositeSubstitution)
    | JValue.arr _ => .error (.configEx .compositeSubstitution)
    | _ => combineItems (JValue.str (pyStr result ++ pyStr item)) rest

/--
`ConfigValueReferenceResolver.resolve(config, key, value)`; the `key`
parameter of the source is unused by this resolver and omitted.  An empty
item list would make the source's `next(itr)` raise `StopIteration`; it is
unreachable for strings accepted by the `test` predicate.
-/
def ConfigValueReferenceResolver.resolve (root : JValue) (value : String) :
    Except PyErr JValue :=
  match parseLeaf root value.data [] with
  | .error e => .error e
  | .ok [] => .error .stopIteration
  | .ok (first :: rest) => combineItems first rest

/-! ## Config.resolve -/

/--
The depth-first `traversal` of `Config.resolve`, indexed by the remaining
native recursion budget: every nested call of the source's `traversal`
consumes one stack frame and exhausting the budget is Python's
`RecursionError`.  A string leaf is offered to
`ConfigValueResolver.find_subclass`; in the core engine the only registered
subclass is `ConfigValueReferenceResolver`, so this amounts to its `test`
predicate (the accumulated path string is dropped: the resolver ignores its
`key` argument).  Per `Option.map`/`or_else`, a resolver chain that ends in
`None` falls back to the original leaf string.
-/
def Config.traversal (root : JValue) : Nat → JValue → Except PyErr JValue
  | 0, _ => .error .recursionError
  | Nat.succ fuel, node =>
    match node with
    | JValue.str s =>
      if ConfigValueReferenceResolver.test s.data then
        match ConfigValueReferenceResolver.resolve root s with
        | .error e => .error e
        | .ok v =>
          match Config.traversal root fuel v with
          | .error e => .error e
          | .ok v2 => .ok (if v2.isNull then JValue.str s else v2)
      else .ok (JValue.str s)
    | JValue.obj xs =>
      (xs.mapM (fun p => (Config.traversal root fuel p.2).map (fun v => (p.1, v)))).map
        JValue.obj
    | JValue.arr l =>
      (l.mapM (fun x => Config.traversal root fuel x)).map JValue.arr
    | v => .ok v

/-- `Config.resolve()` at a given native recursion budget. -/
def Config.resolve (root : JValue) (fuel : Nat) : Except PyErr JValue :=
  Config.traversal root fuel root

/-! ## The subclass registry (_SubclassRegistryMeta) -/

/--
A registered non-abstract subclass in the `_SubclassRegistryMeta` model:
its identity, its priority (`getattr(x, 'priority', 100)`), and its `test`
predicate.
-/
structure Impl where
  id : Nat
  priority : Nat
  test : String → Bool

/-- Stable insertion: `x` goes before the first element of not-smaller priority. -/
def insertImpl (x : Impl) : List Impl → List Impl
  | [] => [x]
  | y :: rest =>
    if y.priority < x.priority then y :: insertImpl x rest else x :: y :: rest

/--
`sorted(cls.__subclasses__(), key=lambda x: getattr(x, 'priority', 100))`:
Python's sort is stable, and the stable sort by priority is unique, so the
stable insertion sort is the same function.
-/
def sortImpls : List Impl → List Impl
  | [] => []
  | x :: rest => insertImpl x (sortImpls rest)

/-- Association lookup in the per-class `__instances` cache. -/
def lookupSerial (k : Nat) : List (Nat × Nat) → Option Nat
  | [] => none
  | (k2, v) :: rest => if k2 = k then some v else lookupSerial k rest

/--
The mutable state of one registry class: the `__instances` cache mapping each
subclass to the serial number of its cached instance, and the log of
construction events (the ids whose `__init__` ran, in order).  The serial of
a construction is its index in the log, so serials identify concrete
instances.
-/
structure RegistryState where
  cache : List (Nat × Nat)
  built : List Nat

/--
The scan inside `find_subclass` over the priority-sorted subclasses: the
first subclass whose `test` accepts the input is taken, and
`cls.__instances.setdefault(subclass, subclass())` is evaluated.  Python
evaluates the `subclass()` argument unconditionally — a fresh instance is
constructed on every successful scan — while `setdefault` stores it only if
the subclass has no cached instance yet and returns the cached one otherwise.
-/
def findFrom (st : RegistryState) (input : String) :
    List Impl → Option Nat × RegistryState
  | [] => (none, st)
  | s :: rest =>
    if s.test input then
      let constructed := st.built.length
      let st1 : RegistryState := ⟨st.cache, st.built ++ [s.id]⟩
      match lookupSerial s.id st1.cache with
      | some serial => (some serial, st1)
      | none => (some constructed, ⟨st1.cache ++ [(s.id, constructed)], st1.built⟩)
    else findFrom st input rest

/-- `_SubclassRegistryMeta.find_subclass` over a registered subclass list. -/
def find_subclass (reg : List Impl) (st : RegistryState) (input : String) :
    Option Nat × RegistryState :=
  findFrom st input (sortImpls reg)

/-- The subclass `find_subclass` would select, independent of the cache. -/
def selectFrom (input : String) : List Impl → Option Nat
  | [] => none
  | s :: rest => if s.test input then some s.id else selectFrom input rest

/-- Selected subclass of a lookup (selection never depends on the cache). -/
def selectImpl (reg : List Impl) (input : String) : Option Nat :=
  selectFrom input (sortImpls reg)

/-- Threading the registry state through a sequence of lookups. -/
def runLookups (reg : List Impl) (st : RegistryState) : List String → RegistryState
  | [] => st
  | input :: rest => runLookups reg (find_subclass reg st input).2 rest

/-- Python's `isinstance(x, dict)`. -/
def JValue.isObj : JValue → Bool
  | JValue.obj _ => true
  | _ => false

/-- Python's `isinstance(x, (Dict, List))`, the composite test of the resolver. -/
def JValue.isComposite : JValue → Bool
  | JValue.obj _ => true
  | JValue.arr _ => true
  | _ => false

/-! ## Lookup and merge lemmas -/

theorem lookupJ_append (k : String) (l1 l2 : List (String × JValue)) :
    lookupJ k (l1 ++ l2) =
      match lookupJ k l1 with
      | some v => some v
      | none => lookupJ k l2 := by
  induction l1 with
  | nil => simp [lookupJ]
  | cons p rest ih =>
    obtain ⟨k2, v⟩ := p
    by_cases h : k2 = k <;> simp [lookupJ, h, ih]

theorem mergeLeft_lookup (k : String) :
    ∀ xs ys : List (String × JValue),
      lookupJ k (mergeLeft xs ys) =
        (lookupJ k xs).map (fun v => mergeVal v (lookupJ k ys)) := by
  intro xs ys
  induction xs with
  | nil => simp [mergeLeft, lookupJ]
  | cons p rest ih =>
    obtain ⟨k2, v⟩ := p
    by_cases h : k2 = k
    · subst h; simp [mergeLeft, lookupJ]
    · simp [mergeLeft, lookupJ, h, ih]

theorem lookupJ_filter_of_none (k : String) (xs : List (String × JValue))
    (h : lookupJ k xs = none) :
    ∀ ys : List (String × JValue),
      lookupJ k (ys.filter (fun p => (lookupJ p.1 xs).isNone)) = lookupJ k ys := by
  intro ys
  induction ys with
  | nil => simp
  | cons p rest ih =>
    obtain ⟨k2, w⟩ := p
    by_cases hk : k2 = k
    · subst hk; simp [List.filter, h, lookupJ]
    · cases hc : (lookupJ k2 xs).isNone <;>
        simp [List.filter, hc, lookupJ, hk, ih]

/--
Claim C1 (amended): for every Tree and path, if the Tree lacks the path then
`get` raises the `no config found` ConfigException whether or not a default
is supplied (the exception is raised before the `Option` wrapping); if the
path is present but its leaf value is null, `get(path, default)` returns the
supplied default, and `get(path)` without a default returns null.
-/
theorem claim1_theorem (root : JValue) (key : String) (default : JValue) :
    (traverse root (splitPath key) = .error (.configEx .keyNotFound) →
      Config.get root key default = .error (.configEx .keyNotFound) ∧
      Config.get1 root key = .error (.configEx .keyNotFound)) ∧
    (traverse root (splitPath key) = .ok JValue.null →
      Config.get root key default = .ok default ∧
      Config.get1 root key = .ok JValue.null) := by
  constructor
  · intro h
    constructor <;> simp [Config.get, Config.get1, h]
  · intro h
    constructor <;> simp [Config.get, Config.get1, h, JValue.isNull]

/-- Claim C1, witness of the amended theorem at concrete configurations. -/
theorem claim1_witness :
    Config.get (JValue.obj [("foo", JValue.num 1)]) "bar" (JValue.num 321)
        = .error (.configEx .keyNotFound) ∧
    Config.get (JValue.obj [("foo", JValue.null)]) "foo" (JValue.num 321)
        = .ok (JValue.num 321) ∧
    Config.get1 (JValue.obj [("foo", JValue.null)]) "foo" = .ok JValue.null :=
  ⟨((claim1_theorem (JValue.obj [("foo", JValue.num 1)]) "bar" (JValue.num 321)).1 rfl).1,
   ((claim1_theorem (JValue.obj [("foo", JValue.null)]) "foo" (JValue.num 321)).2 rfl).1,
   ((claim1_theorem (JValue.obj [("foo", JValue.null)]) "foo" (JValue.num 321)).2 rfl).2⟩

/--
Claim C1, counterexample to the claim as stated: on a Tree lacking
`bar`, `get("bar", 321)` raises the `no config found` ConfigException instead
of returning the default; on a Tree whose leaf `foo` is null, `get("foo", 321)`
returns the default `321`, not null.
-/
theorem claim1_cex :
    Config.get (JValue.obj [("foo", JValue.num 1)]) "bar" (JValue.num 321)
        = .error (.configEx .keyNotFound) ∧
    Config.get (JValue.obj [("foo", JValue.num 1)]) "bar" (JValue.num 321)
        ≠ .ok (JValue.num 321) ∧
    Config.get (JValue.obj [("foo", JValue.null)]) "foo" (JValue.num 321)
        = .ok (JValue.num 321) ∧
    Config.get (JValue.obj [("foo", JValue.null)]) "foo" (JValue.num 321)
        ≠ .ok JValue.null := by
  refine ⟨rfl, ?_, rfl, ?_⟩ <;> intro h <;> exact nomatch h

/--
Claim C3 (amended): with `fill_missing = false`, keys present only in the
fallback are dropped at the top level of the merge only; with
`fill_missing = true` they are kept.  At nested levels the recursive call is
always `merge(d1[k], d2[k], True)`, so fallback-only keys under a key whose
values are dicts on both sides are filled in regardless of `fill_missing`.
-/
theorem claim3_theorem :
    (∀ (xs ys : List (String × JValue)) (k : String), lookupJ k xs = none →
      lookupJ k (Config.with_fallback xs ys false) = none) ∧
    (∀ (xs ys : List (String × JValue)) (k : String), lookupJ k xs = none →
      lookupJ k (Config.with_fallback xs ys true) = lookupJ k ys) ∧
    (∀ (xs ys : List (String × JValue)) (k : String)
      (a b : List (String × JValue)) (fill : Bool),
      lookupJ k xs = some (JValue.obj a) → lookupJ k ys = some (JValue.obj b) →
      lookupJ k (Config.with_fallback xs ys fill) =
        some (JValue.obj (merge a b true))) := by
  refine ⟨?_, ?_, ?_⟩
  · intro xs ys k h
    simp [Config.with_fallback, merge, lookupJ_append, mergeLeft_lookup, h]
  · intro xs ys k h
    simp [Config.with_fallback, merge, lookupJ_append, mergeLeft_lookup, h,
      lookupJ_filter_of_none k xs h ys]
  · intro xs ys k a b fill h1 h2
    simp [Config.with_fallback, merge, lookupJ_append, mergeLeft_lookup, h1, h2,
      mergeVal_obj_obj]

/-- Claim C3, witness of the amended theorem at the unit-test configuration. -/
theorem claim3_witness :
    lookupJ "zaz" (Config.with_fallback [("baz", JValue.num 345)]
        [("zaz", JValue.num 765)] false) = none ∧
    lookupJ "zaz" (Config.with_fallback [("baz", JValue.num 345)]
        [("zaz", JValue.num 765)] true) = some (JValue.num 765) ∧
    lookupJ "foo" (Config.with_fallback
        [("foo", JValue.obj [("bar", JValue.num 123)])]
        [("foo", JValue.obj [("baz", JValue.num 321)])] false) =
      some (JValue.obj (merge [("bar", JValue.num 123)]
        [("baz", JValue.num 321)] true)) :=
  ⟨claim3_theorem.1 [("baz", JValue.num 345)] [("zaz", JValue.num 765)] "zaz" rfl,
   (claim3_theorem.2.1 [("baz", JValue.num 345)] [("zaz", JValue.num 765)] "zaz" rfl).trans rfl,
   claim3_theorem.2.2 [("foo", JValue.obj [("bar", JValue.num 123)])]
     [("foo", JValue.obj [("baz", JValue.num 321)])] "foo"
     [("bar", JValue.num 123)] [("baz", JValue.num 321)] false rfl rfl⟩

/--
Claim C3, counterexample to the claim as stated: merging with
`fill_missing = false`, the key `y` is present only in the fallback at depth 2
yet survives in the result, because the nested recursion always fills.
-/
theorem claim3_cex :
    Config.with_fallback [("m", JValue.obj [])]
        [("m", JValue.obj [("y", JValue.num 2)])] false
      = [("m", JValue.obj [("y", JValue.num 2)])] ∧
    Config.with_fallback [("m", JValue.obj [])]
        [("m", JValue.obj [("y", JValue.num 2)])] false
      ≠ [("m", JValue.obj [])] := by
  refine ⟨rfl, ?_⟩
  intro h
  exact nomatch h

/-! ## with_fallback idempotence -/

theorem lookupJ_isSome_of_mem {xs : List (String × JValue)} {p : String × JValue}
    (h : p ∈ xs) : (lookupJ p.1 xs).isSome = true := by
  induction xs with
  | nil => cases h
  | cons q rest ih =>
    by_cases hq : q.1 = p.1
    · obtain ⟨a, b⟩ := q; simp only [lookupJ]; rw [if_pos hq]; rfl
    · rcases List.mem_cons.1 h with h1 | h1
      · subst h1; exact absurd rfl hq
      · obtain ⟨a, b⟩ := q; simp only [lookupJ]; rw [if_neg hq]; exact ih h1

theorem lookupJ_self_of_noDup {xs : List (String × JValue)}
    (hd : noDupKeys xs = true) : ∀ p ∈ xs, lookupJ p.1 xs = some p.2 := by
  induction xs with
  | nil => intro p h; cases h
  | cons q rest ih =>
    obtain ⟨k0, v0⟩ := q
    simp only [noDupKeys, Bool.and_eq_true] at hd
    intro p hp
    rcases List.mem_cons.1 hp with h1 | h1
    · subst h1; simp [lookupJ]
    · by_cases hk : k0 = p.1
      · exfalso
        have hs := lookupJ_isSome_of_mem h1
        rw [← hk] at hs
        rw [Option.isNone_iff_eq_none.1 hd.1] at hs
        cases hs
      · simp only [lookupJ]; rw [if_neg hk]; exact ih hd.2 p h1

theorem JWFEntries_mem {xs : List (String × JValue)}
    (h : JWFEntries xs = true) : ∀ p ∈ xs, JWF p.2 = true := by
  induction xs with
  | nil => intro p hp; cases hp
  | cons q rest ih =>
    obtain ⟨k0, v0⟩ := q
    simp only [JWFEntries, Bool.and_eq_true] at h
    intro p hp
    rcases List.mem_cons.1 hp with h1 | h1
    · subst h1; exact h.1
    · exact ih h.2 p h1

theorem mergeLeft_congr {xs ys : List (String × JValue)}
    (h : ∀ p ∈ xs, mergeVal p.2 (lookupJ p.1 ys) = p.2) : mergeLeft xs ys = xs := by
  induction xs with
  | nil => rfl
  | cons p rest ih =>
    obtain ⟨k, v⟩ := p
    simp only [mergeLeft]
    rw [h (k, v) (List.mem_cons_self _ _), ih (fun q hq => h q (List.mem_cons_of_mem _ hq))]

theorem filter_nil_of_all_found {xs ys : List (String × JValue)}
    (h : ∀ p ∈ ys, (lookupJ p.1 xs).isSome = true) :
    ys.filter (fun p => (lookupJ p.1 xs).isNone) = [] := by
  induction ys with
  | nil => rfl
  | cons p rest ih =>
    have hp := h p (List.mem_cons_self _ _)
    have : (lookupJ p.1 xs).isNone = false := by
      cases hl : lookupJ p.1 xs
      · rw [hl] at hp; cases hp
      · rfl
    simp [List.filter, this, ih (fun q hq => h q (List.mem_cons_of_mem _ hq))]

theorem sizeOf_snd_lt_of_mem {xs : List (String × JValue)} {p : String × JValue}
    (h : p ∈ xs) : sizeOf p.2 < sizeOf (JValue.obj xs) := by
  have h1 := List.sizeOf_lt_of_mem h
  obtain ⟨a, b⟩ := p
  simp at h1 ⊢
  omega

theorem mergeVal_self : ∀ (n : Nat) (v : JValue), sizeOf v ≤ n → JWF v = true →
    mergeVal v (some v) = v := by
  intro n
  induction n with
  | zero =>
    intro v hv _
    exfalso; cases v <;> simp at hv
  | succ n ih =>
    intro v hv hwf
    cases v with
    | obj xs =>
      simp only [JWF, Bool.and_eq_true] at hwf
      rw [mergeVal_obj_obj, merge]
      rw [mergeLeft_congr (fun p hp => by
        rw [lookupJ_self_of_noDup hwf.1 p hp]
        exact ih p.2 (by have := sizeOf_snd_lt_of_mem hp; simp at this hv ⊢; omega)
          (JWFEntries_mem hwf.2 p hp))]
      rw [if_pos rfl, filter_nil_of_all_found (fun p hp => lookupJ_isSome_of_mem hp)]
      simp
    | null => rfl
    | bool b => rfl
    | num m => rfl
    | str s => rfl
    | arr l => rfl

theorem merge_self {xs : List (String × JValue)} (h : JWF (JValue.obj xs) = true) :
    merge xs xs true = xs := by
  have h1 := mergeVal_self (sizeOf (JValue.obj xs)) (JValue.obj xs) le_rfl h
  rw [mergeVal_obj_obj] at h1
  exact JValue.obj.inj h1

theorem mergeVal_left_of_not_both_obj {v w : JValue}
    (h : v.isObj = false ∨ w.isObj = false) : mergeVal v (some w) = v := by
  cases v <;> cases w <;> simp [JValue.isObj] at h ⊢ <;> rfl

/--
Claim C8: `with_fallback` is idempotent on well-formed configurations
(`a.with_fallback(a) == a`); on key collisions the left value wins
(`{foo:1}.with_fallback({foo:2}) == {foo:1}` and
`{}.with_fallback({foo:2}) == {foo:2}`); keys whose values are dicts on both
sides merge recursively with `use_dict2 = True`, and any non-dict collision
keeps the left value entirely.  (The model fixes left-first key order, which
Python's order-insensitive dict equality cannot distinguish.)
-/
theorem claim8_theorem :
    (∀ xs : List (String × JValue), JWF (JValue.obj xs) = true →
      Config.with_fallback xs xs true = xs) ∧
    (Config.with_fallback [("foo", JValue.num 1)] [("foo", JValue.num 2)] true
      = [("foo", JValue.num 1)]) ∧
    (Config.with_fallback [] [("foo", JValue.num 2)] true
      = [("foo", JValue.num 2)]) ∧
    (∀ (xs ys : List (String × JValue)) (k : String)
      (a b : List (String × JValue)) (fill : Bool),
      lookupJ k xs = some (JValue.obj a) → lookupJ k ys = some (JValue.obj b) →
      lookupJ k (Config.with_fallback xs ys fill) =
        some (JValue.obj (Config.with_fallback a b true))) ∧
    (∀ (xs ys : List (String × JValue)) (k : String) (v w : JValue) (fill : Bool),
      lookupJ k xs = some v → lookupJ k ys = some w →
      v.isObj = false ∨ w.isObj = false →
      lookupJ k (Config.with_fallback xs ys fill) = some v) := by
  refine ⟨?_, rfl, rfl, ?_, ?_⟩
  · intro xs h
    exact merge_self h
  · intro xs ys k a b fill h1 h2
    simp [Config.with_fallback, merge, lookupJ_append, mergeLeft_lookup, h1, h2,
      mergeVal_obj_obj]
  · intro xs ys k v w fill h1 h2 h3
    simp [Config.with_fallback, merge, lookupJ_append, mergeLeft_lookup, h1, h2,
      mergeVal_left_of_not_both_obj h3]

/-- Claim C8, witness at concrete configurations. -/
theorem claim8_witness :
    Config.with_fallback
        [("a", JValue.obj [("x", JValue.num 1)]), ("b", JValue.arr [JValue.null])]
        [("a", JValue.obj [("x", JValue.num 1)]), ("b", JValue.arr [JValue.null])]
        true
      = [("a", JValue.obj [("x", JValue.num 1)]), ("b", JValue.arr [JValue.null])] ∧
    lookupJ "a" (Config.with_fallback [("a", JValue.obj [("x", JValue.num 1)])]
        [("a", JValue.obj [("y", JValue.num 2)])] true) =
      some (JValue.obj (Config.with_fallback [("x", JValue.num 1)]
        [("y", JValue.num 2)] true)) ∧
    lookupJ "a" (Config.with_fallback [("a", JValue.arr [JValue.str "aa"])]
        [("a", JValue.num 123)] true) = some (JValue.arr [JValue.str "aa"]) :=
  ⟨claim8_theorem.1 _ rfl,
   claim8_theorem.2.2.2.1 [("a", JValue.obj [("x", JValue.num 1)])]
     [("a", JValue.obj [("y", JValue.num 2)])] "a"
     [("x", JValue.num 1)] [("y", JValue.num 2)] true rfl rfl,
   claim8_theorem.2.2.2.2 [("a", JValue.arr [JValue.str "aa"])]
     [("a", JValue.num 123)] "a" (JValue.arr [JValue.str "aa"]) (JValue.num 123)
     true rfl rfl (Or.inl rfl)⟩

/-! ## Registry lemmas -/

theorem lookupSerial_isSome_iff (k : Nat) :
    ∀ l : List (Nat × Nat), (lookupSerial k l).isSome = true ↔ k ∈ l.map Prod.fst := by
  intro l
  induction l with
  | nil => simp [lookupSerial]
  | cons p rest ih =>
    obtain ⟨k2, v⟩ := p
    by_cases h : k2 = k
    · subst h; simp [lookupSerial]
    · have h2 : ¬k = k2 := fun hh => h hh.symm
      simp [lookupSerial, h, h2, ih]

theorem findFrom_cache (input : String) (st : RegistryState) :
    ∀ l : List Impl, (findFrom st input l).2.cache =
      match selectFrom input l with
      | none => st.cache
      | some id =>
        if (lookupSerial id st.cache).isSome then st.cache
        else st.cache ++ [(id, st.built.length)] := by
  intro l
  induction l with
  | nil => simp [findFrom, selectFrom]
  | cons s rest ih =>
    cases ht : s.test input
    · simp [findFrom, selectFrom, ht, ih]
    · cases hl : lookupSerial s.id st.cache <;>
        simp [findFrom, selectFrom, ht, hl]

theorem findFrom_built (input : String) (st : RegistryState) :
    ∀ l : List Impl, (findFrom st input l).2.built =
      st.built ++
        (match selectFrom input l with
         | none => []
         | some id => [id]) := by
  intro l
  induction l with
  | nil => simp [findFrom, selectFrom]
  | cons s rest ih =>
    cases ht : s.test input
    · simp [findFrom, selectFrom, ht, ih]
    · cases hl : lookupSerial s.id st.cache <;>
        simp [findFrom, selectFrom, ht, hl]

theorem find_subclass_cache (reg : List Impl) (st : RegistryState) (input : String) :
    (find_subclass reg st input).2.cache =
      match selectImpl reg input with
      | none => st.cache
      | some id =>
        if (lookupSerial id st.cache).isSome then st.cache
        else st.cache ++ [(id, st.built.length)] :=
  findFrom_cache input st (sortImpls reg)

theorem find_subclass_built (reg : List Impl) (st : RegistryState) (input : String) :
    (find_subclass reg st input).2.built =
      st.built ++
        (match selectImpl reg input with
         | none => []
         | some id => [id]) :=
  findFrom_built input st (sortImpls reg)

theorem runLookups_built (reg : List Impl) :
    ∀ (inputs : List String) (st : RegistryState),
      (runLookups reg st inputs).built =
        st.built ++ inputs.filterMap (fun t => selectImpl reg t) := by
  intro inputs
  induction inputs with
  | nil => intro st; simp [runLookups]
  | cons input rest ih =>
    intro st
    rw [runLookups, ih, find_subclass_built]
    cases hs : selectImpl reg input <;> simp [List.filterMap_cons, hs]

theorem find_subclass_cache_none (reg : List Impl) (st : RegistryState)
    (input : String) (h : selectImpl reg input = none) :
    (find_subclass reg st input).2.cache = st.cache := by
  rw [find_subclass_cache, h]

theorem find_subclass_cache_some (reg : List Impl) (st : RegistryState)
    (input : String) (id0 : Nat) (h : selectImpl reg input = some id0) :
    (find_subclass reg st input).2.cache =
      if (lookupSerial id0 st.cache).isSome then st.cache
      else st.cache ++ [(id0, st.built.length)] := by
  rw [find_subclass_cache, h]

theorem find_subclass_keys_mem (reg : List Impl) (st : RegistryState)
    (input : String) (id : Nat) :
    id ∈ ((find_subclass reg st input).2.cache.map Prod.fst) ↔
      id ∈ st.cache.map Prod.fst ∨ selectImpl reg input = some id := by
  cases hs : selectImpl reg input
  · rw [find_subclass_cache_none reg st input hs]
    simp
  · rename_i id0
    rw [find_subclass_cache_some reg st input id0 hs]
    cases hc : (lookupSerial id0 st.cache).isSome
    · rw [if_neg (by simp [hc])]
      simp only [List.map_append, List.mem_append, List.map_cons, List.map_nil,
        List.mem_singleton, Option.some_inj]
      constructor
      · rintro (h1 | h1)
        · exact Or.inl h1
        · exact Or.inr h1.symm
      · rintro (h1 | h1)
        · exact Or.inl h1
        · exact Or.inr h1.symm
    · rw [if_pos (by simp [hc])]
      constructor
      · exact Or.inl
      · rintro (h1 | h1)
        · exact h1
        · rw [← Option.some_inj.1 h1]
          exact (lookupSerial_isSome_iff id0 st.cache).1 hc

theorem find_subclass_keys_nodup (reg : List Impl) (st : RegistryState)
    (input : String) (h : (st.cache.map Prod.fst).Nodup) :
    ((find_subclass reg st input).2.cache.map Prod.fst).Nodup := by
  cases hs : selectImpl reg input
  · rw [find_subclass_cache_none reg st input hs]
    exact h
  · rename_i id0
    rw [find_subclass_cache_some reg st input id0 hs]
    cases hc : (lookupSerial id0 st.cache).isSome
    · rw [if_neg (by simp [hc])]
      have hid : id0 ∉ st.cache.map Prod.fst := by
        intro hmem
        rw [(lookupSerial_isSome_iff id0 st.cache).2 hmem] at hc
        cases hc
      simp [List.nodup_append, h, hid]
    · rw [if_pos (by simp [hc])]
      exact h

theorem runLookups_cache_nodup (reg : List Impl) :
    ∀ (inputs : List String) (st : RegistryState),
      (st.cache.map Prod.fst).Nodup →
      ((runLookups reg st inputs).cache.map Prod.fst).Nodup := by
  intro inputs
  induction inputs with
  | nil => intro st h; simpa [runLookups] using h
  | cons input rest ih =>
    intro st h
    rw [runLookups]
    exact ih _ (find_subclass_keys_nodup reg st input h)

theorem runLookups_cache_mem (reg : List Impl) :
    ∀ (inputs : List String) (st : RegistryState) (id : Nat),
      id ∈ ((runLookups reg st inputs).cache.map Prod.fst) ↔
        id ∈ st.cache.map Prod.fst ∨ ∃ t ∈ inputs, selectImpl reg t = some id := by
  intro inputs
  induction inputs with
  | nil => intro st id; simp [runLookups]
  | cons input rest ih =>
    intro st id
    rw [runLookups, ih, find_subclass_keys_mem]
    constructor
    · rintro ((hm | hm) | ⟨t, ht, hsel⟩)
      · exact Or.inl hm
      · exact Or.inr ⟨input, List.mem_cons_self _ _, hm⟩
      · exact Or.inr ⟨t, List.mem_cons_of_mem _ ht, hsel⟩
    · rintro (hm | ⟨t, ht, hsel⟩)
      · exact Or.inl (Or.inl hm)
      · rcases List.mem_cons.1 ht with h1 | h1
        · subst h1
          exact Or.inl (Or.inr hsel)
        · exact Or.inr ⟨t, h1, hsel⟩

/--
Claim C2 (amended): with registered implementations of priorities 10 and 100
both matching, `find_subclass` selects the priority-10 implementation
(ascending priority, stable order), and across repeated lookups at most one
instance of each implementation type is ever *cached*, with the cached
instance created at the first successful match and returned thereafter; but
because `setdefault(subclass, subclass())` evaluates its argument eagerly, a
fresh instance is constructed (and discarded) on *every* successful lookup,
never before the first successful match.
-/
theorem claim2_theorem (a b : Impl) (s : String) (reg : List Impl)
    (ha : a.priority = 10) (hb : b.priority = 100)
    (hta : a.test s = true) (htb : b.test s = true) :
    (selectImpl [a, b] s = some a.id ∧ selectImpl [b, a] s = some a.id ∧
      (find_subclass [b, a] ⟨[], []⟩ s).1 = some 0 ∧
      (find_subclass [b, a] ⟨[], []⟩ s).2.cache = [(a.id, 0)] ∧
      (find_subclass [b, a] ⟨[], []⟩ s).2.built = [a.id]) ∧
    (∀ (inputs : List String) (st : RegistryState), (st.cache.map Prod.fst).Nodup →
      ((runLookups reg st inputs).cache.map Prod.fst).Nodup) ∧
    (∀ (inputs : List String) (id : Nat),
      id ∈ ((runLookups reg ⟨[], []⟩ inputs).cache.map Prod.fst) ↔
        ∃ t ∈ inputs, selectImpl reg t = some id) ∧
    (∀ (inputs : List String) (st : RegistryState),
      (runLookups reg st inputs).built =
        st.built ++ inputs.filterMap (fun t => selectImpl reg t)) := by
  have hsort1 : sortImpls [a, b] = [a, b] := by
    simp [sortImpls, insertImpl, ha, hb]
  have hsort2 : sortImpls [b, a] = [a, b] := by
    simp [sortImpls, insertImpl, ha, hb]
  refine ⟨⟨?_, ?_, ?_, ?_, ?_⟩, ?_, ?_, ?_⟩
  · simp [selectImpl, hsort1, selectFrom, hta]
  · simp [selectImpl, hsort2, selectFrom, hta]
  · simp [find_subclass, hsort2, findFrom, hta, lookupSerial]
  · simp [find_subclass, hsort2, findFrom, hta, lookupSerial]
  · simp [find_subclass, hsort2, findFrom, hta, lookupSerial]
  · intro inputs st h; exact runLookups_cache_nodup reg inputs st h
  · intro inputs id; simpa using runLookups_cache_mem reg inputs ⟨[], []⟩ id
  · intro inputs st; exact runLookups_built reg inputs st

/-- Claim C2, witness of the amended theorem at a concrete two-entry registry. -/
theorem claim2_witness :
    selectImpl [Impl.mk 1 10 (fun _ => true), Impl.mk 0 100 (fun _ => true)] "x"
      = some 1 ∧
    (find_subclass [Impl.mk 0 100 (fun _ => true), Impl.mk 1 10 (fun _ => true)]
      ⟨[], []⟩ "x").2.cache = [(1, 0)] ∧
    (runLookups [Impl.mk 0 100 (fun _ => true), Impl.mk 1 10 (fun _ => true)]
        ⟨[], []⟩ ["x", "y"]).built =
      [] ++ ["x", "y"].filterMap (fun t =>
        selectImpl [Impl.mk 0 100 (fun _ => true), Impl.mk 1 10 (fun _ => true)] t) :=
  ⟨(claim2_theorem (Impl.mk 1 10 (fun _ => true)) (Impl.mk 0 100 (fun _ => true))
      "x" [] rfl rfl rfl rfl).1.1,
   (claim2_theorem (Impl.mk 1 10 (fun _ => true)) (Impl.mk 0 100 (fun _ => true))
      "x" [] rfl rfl rfl rfl).1.2.2.2.1,
   (claim2_theorem (Impl.mk 1 10 (fun _ => true)) (Impl.mk 0 100 (fun _ => true))
      "x" [Impl.mk 0 100 (fun _ => true), Impl.mk 1 10 (fun _ => true)]
      rfl rfl rfl rfl).2.2.2 ["x", "y"] ⟨[], []⟩⟩

/--
Claim C2, counterexample to the claim as stated: two lookups that both match
the priority-10 implementation (id 1) run its constructor twice — the
construction log is `[1, 1]` — even though only one instance is ever cached,
because `setdefault(subclass, subclass())` constructs its default argument
eagerly on every successful lookup.
-/
theorem claim2_cex :
    (runLookups [Impl.mk 0 100 (fun _ => true), Impl.mk 1 10 (fun _ => true)]
      ⟨[], []⟩ ["x", "x"]).built = [1, 1] ∧
    (runLookups [Impl.mk 0 100 (fun _ => true), Impl.mk 1 10 (fun _ => true)]
      ⟨[], []⟩ ["x", "x"]).built.count 1 = 2 ∧
    (runLookups [Impl.mk 0 100 (fun _ => true), Impl.mk 1 10 (fun _ => true)]
      ⟨[], []⟩ ["x", "x"]).cache = [(1, 0)] :=
  ⟨rfl, rfl, rfl⟩

/-! ## Scanner and parser lemmas for the placeholder resolver -/

theorem findSub_none_of_head_not_mem {h : Char} {tail cs : List Char}
    (hm : h ∉ cs) : findSub (h :: tail) cs = none := by
  induction cs with
  | nil => rfl
  | cons c rest ih =>
    have hch : c ≠ h := fun hh => hm (hh ▸ List.mem_cons_self _ _)
    have hpre : (h :: tail).isPrefixOf (c :: rest) = false := by
      simp only [List.isPrefixOf, Bool.and_eq_false_iff]
      exact Or.inl (by simp only [beq_eq_false_iff_ne]; exact fun hh => hch hh.symm)
    rw [findSub, if_neg (by simp [hpre]), ih (fun hx => hm (List.mem_cons_of_mem _ hx))]
    rfl

theorem findSub_append_of_head_not_mem {h : Char} {tail : List Char} :
    ∀ {cs : List Char} (ds : List Char), h ∉ cs →
      findSub (h :: tail) (cs ++ ds) = (findSub (h :: tail) ds).map (· + cs.length) := by
  intro cs
  induction cs with
  | nil =>
    intro ds _
    cases hf : findSub (h :: tail) ds <;> simp [hf]
  | cons c rest ih =>
    intro ds hm
    have hch : c ≠ h := fun hh => hm (hh ▸ List.mem_cons_self _ _)
    have hpre : (h :: tail).isPrefixOf (c :: (rest ++ ds)) = false := by
      simp only [List.isPrefixOf, Bool.and_eq_false_iff]
      exact Or.inl (by simp only [beq_eq_false_iff_ne]; exact fun hh => hch hh.symm)
    rw [List.cons_append, findSub, if_neg (by simp [hpre]),
      ih ds (fun hx => hm (List.mem_cons_of_mem _ hx))]
    cases hf : findSub (h :: tail) ds <;> simp [hf] <;> omega

theorem test_false_of_no_dollar {cs : List Char} (hm : '$' ∉ cs) :
    ConfigValueReferenceResolver.test cs = false := by
  rw [ConfigValueReferenceResolver.test, findSub_none_of_head_not_mem hm]

/-- The `test` predicate accepts `lit1 ++ "${" ++ p ++ "}" ++ rest2` when no
stray `$` or `}` precedes the reference. -/
theorem test_true_of_ref {lit1 p rest2 : List Char}
    (h1 : '$' ∉ lit1) (hrb1 : rbrace ∉ lit1) (hrbp : rbrace ∉ p) :
    ConfigValueReferenceResolver.test
      (lit1 ++ '$' :: lbrace :: (p ++ rbrace :: rest2)) = true := by
  have hfind1 : findSub ['$', lbrace] (lit1 ++ '$' :: lbrace :: (p ++ rbrace :: rest2))
      = some lit1.length := by
    rw [findSub_append_of_head_not_mem _ h1]
    rw [findSub, if_pos (by simp [List.isPrefixOf, lbrace])]
    simp
  have hshape : lit1 ++ '$' :: lbrace :: (p ++ rbrace :: rest2)
      = (lit1 ++ '$' :: lbrace :: p) ++ rbrace :: rest2 := by
    simp
  have hnot : rbrace ∉ lit1 ++ '$' :: lbrace :: p := by
    intro hmem
    rcases List.mem_append.1 hmem with hx | hx
    · exact hrb1 hx
    · rcases List.mem_cons.1 hx with hx1 | hx1
      · exact absurd hx1 (by decide)
      · rcases List.mem_cons.1 hx1 with hx2 | hx2
        · exact absurd hx2 (by decide)
        · exact hrbp hx2
  have hfind2 : findSub [rbrace] (lit1 ++ '$' :: lbrace :: (p ++ rbrace :: rest2))
      = some (lit1.length + 2 + p.length) := by
    rw [hshape, findSub_append_of_head_not_mem _ hnot]
    rw [findSub, if_pos (by simp [List.isPrefixOf])]
    simp
    omega
  rw [ConfigValueReferenceResolver.test, hfind1, hfind2]
  simp
  omega

theorem parseLeaf_no_dollar (root : JValue) :
    ∀ (cs acc : List Char), '$' ∉ cs →
      parseLeaf root cs acc = .ok (flushAcc (acc ++ cs)) := by
  intro cs
  induction cs with
  | nil => intro acc _; simp [parseLeaf]
  | cons c rest ih =>
    intro acc hm
    have hch : ¬c = '$' := fun hh => hm (hh ▸ List.mem_cons_self _ _)
    rw [parseLeaf, if_neg hch, ih (acc ++ [c]) (fun hx => hm (List.mem_cons_of_mem _ hx))]
    simp

theorem parseLeaf_prepend (root : JValue) :
    ∀ (cs tail acc : List Char), '$' ∉ cs →
      parseLeaf root (cs ++ '$' :: tail) acc = parseDollar root tail (acc ++ cs) := by
  intro cs
  induction cs with
  | nil =>
    intro tail acc _
    rw [List.nil_append, parseLeaf, if_pos rfl, List.append_nil]
  | cons c rest ih =>
    intro tail acc hm
    have hch : ¬c = '$' := fun hh => hm (hh ▸ List.mem_cons_self _ _)
    rw [List.cons_append, parseLeaf, if_neg hch,
      ih tail (acc ++ [c]) (fun hx => hm (List.mem_cons_of_mem _ hx))]
    simp

theorem parseRef_scan (root : JValue) (rest : List Char) :
    ∀ (p body : List Char), rbrace ∉ p → body ++ p ≠ [] →
    parseRef root (p ++ rbrace :: rest) body =
      match resolverGet root (body ++ p) with
      | .error e => .error e
      | .ok v =>
        match parseLeaf root rest [] with
        | .error e => .error e
        | .ok items => .ok (v :: items) := by
  intro p
  induction p with
  | nil =>
    intro body _ hne
    rw [List.nil_append, parseRef, if_pos rfl,
      if_neg (by simpa using hne), List.append_nil]
  | cons c p' ih =>
    intro body hm hne
    have hch : ¬c = rbrace := fun hh => hm (hh ▸ List.mem_cons_self _ _)
    rw [List.cons_append, parseRef, if_neg hch,
      ih (body ++ [c]) (fun hx => hm (List.mem_cons_of_mem _ hx)) (by simp)]
    simp

/--
The parse of a leaf `lit1 ++ "${" ++ p ++ "}" ++ lit2` with dollar-free
literal parts: the literal runs are yielded around the referenced value.
-/
theorem parseLeaf_ref (root : JValue) (lit1 p lit2 : List Char) (v : JValue)
    (h1 : '$' ∉ lit1) (hp : rbrace ∉ p) (hpne : p ≠ [])
    (hres : resolverGet root p = .ok v) (h2 : '$' ∉ lit2) :
    parseLeaf root (lit1 ++ '$' :: lbrace :: (p ++ rbrace :: lit2)) [] =
      .ok (flushAcc lit1 ++ v :: flushAcc lit2) := by
  rw [parseLeaf_prepend root lit1 (lbrace :: (p ++ rbrace :: lit2)) [] h1,
    List.nil_append, parseDollar, if_neg (by decide), if_pos rfl,
    parseRef_scan root lit2 p [] hp (by simpa using hpne), List.nil_append, hres,
    parseLeaf_no_dollar root lit2 [] h2]
  simp

theorem splitOnChar_of_not_mem {sep : Char} :
    ∀ {cs : List Char}, sep ∉ cs → splitOnChar sep cs = [cs] := by
  intro cs
  induction cs with
  | nil => intro _; rfl
  | cons c rest ih =>
    intro hm
    have hch : ¬c = sep := fun hh => hm (hh ▸ List.mem_cons_self _ _)
    rw [splitOnChar]
    simp only [if_neg hch, ih (fun hx => hm (List.mem_cons_of_mem _ hx))]
    rfl

theorem splitOnceChar_of_not_mem {sep : Char} :
    ∀ {cs : List Char}, sep ∉ cs → splitOnceChar sep cs = none := by
  intro cs
  induction cs with
  | nil => intro _; rfl
  | cons c rest ih =>
    intro hm
    have hch : ¬c = sep := fun hh => hm (hh ▸ List.mem_cons_self _ _)
    rw [splitOnceChar, if_neg hch, ih (fun hx => hm (List.mem_cons_of_mem _ hx))]
    rfl

/-- A reference body without `|` and `?` is a plain `Config.get` lookup. -/
theorem resolverGet_plain (root : JValue) (p : List Char)
    (h1 : '|' ∉ p) (h2 : '?' ∉ p) :
    resolverGet root p = Config.get1 root (String.mk p) := by
  rw [resolverGet, splitOnChar_of_not_mem h1]
  simp only [show ([p] : List (List Char)).dropLast = [] from rfl,
    show ([p] : List (List Char)).getLastD [] = p from rfl]
  rw [resolverGetChain, resolverGetLast, splitOnceChar_of_not_mem h2]

/-- The single-pass resolver on a leaf that is exactly one reference. -/
theorem resolver_single_ref (root : JValue) (p : List Char) (v : JValue)
    (hp : rbrace ∉ p) (hpne : p ≠ []) (hres : resolverGet root p = .ok v) :
    ConfigValueReferenceResolver.resolve root
      (String.mk ('$' :: lbrace :: (p ++ [rbrace]))) = .ok v := by
  have hdata : (String.mk ('$' :: lbrace :: (p ++ [rbrace]))).data
      = [] ++ '$' :: lbrace :: (p ++ rbrace :: []) := by simp
  rw [ConfigValueReferenceResolver.resolve, hdata,
    parseLeaf_ref root [] p [] v (by simp) hp hpne hres (by simp)]
  rfl

/-! ## Placeholder-free values pass through resolve unchanged -/

mutual

/-- No string anywhere in the value contains a `$` (so no resolver matches). -/
def NoDollarJ : JValue → Bool
  | JValue.str s => decide ('$' ∉ s.data)
  | JValue.obj xs => NoDollarEntries xs
  | JValue.arr l => NoDollarList l
  | _ => true

/-- `NoDollarJ` on every value of an entry list. -/
def NoDollarEntries : List (String × JValue) → Bool
  | [] => true
  | (_, v) :: rest => NoDollarJ v && NoDollarEntries rest

/-- `NoDollarJ` on every element of a list. -/
def NoDollarList : List JValue → Bool
  | [] => true
  | v :: rest => NoDollarJ v && NoDollarList rest

end

theorem NoDollarEntries_mem {xs : List (String × JValue)}
    (h : NoDollarEntries xs = true) : ∀ p ∈ xs, NoDollarJ p.2 = true := by
  induction xs with
  | nil => intro p hp; cases hp
  | cons q rest ih =>
    obtain ⟨k0, v0⟩ := q
    simp only [NoDollarEntries, Bool.and_eq_true] at h
    intro p hp
    rcases List.mem_cons.1 hp with h1 | h1
    · subst h1; exact h.1
    · exact ih h.2 p h1

theorem NoDollarList_mem {l : List JValue}
    (h : NoDollarList l = true) : ∀ x ∈ l, NoDollarJ x = true := by
  induction l with
  | nil => intro x hx; cases hx
  | cons v rest ih =>
    simp only [NoDollarList, Bool.and_eq_true] at h
    intro x hx
    rcases List.mem_cons.1 hx with h1 | h1
    · subst h1; exact h.1
    · exact ih h.2 x h1

theorem sizeOf_elem_lt_of_mem {l : List JValue} {x : JValue}
    (h : x ∈ l) : sizeOf x < sizeOf (JValue.arr l) := by
  have h1 := List.sizeOf_lt_of_mem h
  simp
  omega

theorem mapM_traversal_entries_id (root : JValue) (f : Nat) :
    ∀ xs : List (String × JValue),
      (∀ p ∈ xs, Config.traversal root f p.2 = .ok p.2) →
      xs.mapM (fun p => (Config.traversal root f p.2).map (fun v => (p.1, v)))
        = .ok xs := by
  intro xs
  induction xs with
  | nil => intro _; rfl
  | cons p rest ih =>
    intro h
    rw [List.mapM_cons, h p (List.mem_cons_self _ _),
      ih (fun q hq => h q (List.mem_cons_of_mem _ hq))]
    rfl

theorem mapM_traversal_list_id (root : JValue) (f : Nat) :
    ∀ l : List JValue,
      (∀ x ∈ l, Config.traversal root f x = .ok x) →
      l.mapM (fun x => Config.traversal root f x) = .ok l := by
  intro l
  induction l with
  | nil => intro _; rfl
  | cons x rest ih =>
    intro h
    rw [List.mapM_cons, h x (List.mem_cons_self _ _),
      ih (fun y hy => h y (List.mem_cons_of_mem _ hy))]
    rfl

/-- A value without `$` in any of its strings passes through the resolve
traversal unchanged, at any recursion budget at least its size. -/
theorem noDollar_traversal (root : JValue) :
    ∀ (n : Nat) (v : JValue) (f : Nat), sizeOf v ≤ n → NoDollarJ v = true →
      sizeOf v ≤ f → Config.traversal root f v = .ok v := by
  intro n
  induction n with
  | zero =>
    intro v f h1 _ _
    exfalso; cases v <;> simp at h1
  | succ n ih =>
    intro v f h1 h2 h3
    obtain ⟨f', rfl⟩ : ∃ f', f = f' + 1 := by
      cases f
      · exfalso; cases v <;> simp at h3
      · exact ⟨_, rfl⟩
    cases v with
    | null => rfl
    | bool b => rfl
    | num m => rfl
    | str s =>
      have hd : '$' ∉ s.data := of_decide_eq_true (by simpa [NoDollarJ] using h2)
      simp only [Config.traversal, test_false_of_no_dollar hd]
      rfl
    | obj xs =>
      simp only [Config.traversal]
      rw [mapM_traversal_entries_id root f' xs (fun p hp => by
        have hs := sizeOf_snd_lt_of_mem hp
        exact ih p.2 f' (by simp at h1 hs ⊢; omega)
          (NoDollarEntries_mem (by simpa [NoDollarJ] using h2) p hp)
          (by simp at h3 hs ⊢; omega))]
      rfl
    | arr l =>
      simp only [Config.traversal]
      rw [mapM_traversal_list_id root f' l (fun x hx => by
        have hs := sizeOf_elem_lt_of_mem hx
        exact ih x f' (by simp at h1 hs ⊢; omega)
          (NoDollarList_mem (by simpa [NoDollarJ] using h2) x hx)
          (by simp at h3 hs ⊢; omega))]
      rfl

/-- An error while resolving the first entry of a dict propagates. -/
theorem traversal_obj_head_error (root : JValue) (f : Nat) (k : String)
    (v : JValue) (rest : List (String × JValue)) (e : PyErr)
    (h : Config.traversal root f v = .error e) :
    Config.traversal root (f + 1) (JValue.obj ((k, v) :: rest)) = .error e := by
  simp only [Config.traversal, List.mapM_cons, h]
  rfl

/-! ## Claim C9: unresolved cycles exhaust the native recursion budget -/

/-- The cyclic configuration of `test_config_resolve_with_loop`:
`{exp: "${foo}", foo: "${bar}", bar: "${foo}"}`. -/
def cyclicConfig : JValue :=
  JValue.obj [("exp", JValue.str "$\x7bfoo\x7d"), ("foo", JValue.str "$\x7bbar\x7d"),
    ("bar", JValue.str "$\x7bfoo\x7d")]

theorem cyclic_step1 (f : Nat) :
    Config.traversal cyclicConfig (f + 1) (JValue.str "$\x7bfoo\x7d") =
      match Config.traversal cyclicConfig f (JValue.str "$\x7bbar\x7d") with
      | .error e => .error e
      | .ok v2 => .ok (if v2.isNull then JValue.str "$\x7bfoo\x7d" else v2) := rfl

theorem cyclic_step2 (f : Nat) :
    Config.traversal cyclicConfig (f + 1) (JValue.str "$\x7bbar\x7d") =
      match Config.traversal cyclicConfig f (JValue.str "$\x7bfoo\x7d") with
      | .error e => .error e
      | .ok v2 => .ok (if v2.isNull then JValue.str "$\x7bbar\x7d" else v2) := rfl

theorem cyclic_loop : ∀ f : Nat,
    Config.traversal cyclicConfig f (JValue.str "$\x7bfoo\x7d")
      = .error .recursionError ∧
    Config.traversal cyclicConfig f (JValue.str "$\x7bbar\x7d")
      = .error .recursionError := by
  intro f
  induction f with
  | zero => exact ⟨rfl, rfl⟩
  | succ f ih =>
    constructor
    · rw [cyclic_step1, ih.2]
    · rw [cyclic_step2, ih.1]

/--
Claim C9: on the self-referential chain `{exp: "${foo}", foo: "${bar}",
bar: "${foo}"}`, resolve() performs no cycle detection and produces no clean
domain error: at every recursion budget it exhausts the budget and surfaces
Python's `RecursionError` (the stack-overflow class failure).
-/
theorem claim9_theorem : ∀ fuel : Nat,
    Config.resolve cyclicConfig fuel = .error .recursionError := by
  intro fuel
  cases fuel with
  | zero => rfl
  | succ f =>
    exact traversal_obj_head_error cyclicConfig f "exp" (JValue.str "$\x7bfoo\x7d")
      _ _ (cyclic_loop f).1

/-! ## Claim C10: a null-valued single reference leaves the leaf unchanged -/

/--
Claim C10: if a string leaf is exactly one `${p}` reference whose target path
exists with a null value (`get(p)` returns null), the resolve traversal
returns the leaf unchanged as the original placeholder string: the resolver
yields null, `Option.map` turns the null into an empty Option, and `or_else`
falls back to the original leaf.
-/
theorem claim10_theorem (root : JValue) (p : List Char) (fuel : Nat)
    (hne : p ≠ []) (hrb : rbrace ∉ p) (hpipe : '|' ∉ p) (hq : '?' ∉ p)
    (hget : Config.get1 root (String.mk p) = .ok JValue.null) :
    Config.traversal root (fuel + 2)
        (JValue.str (String.mk ('$' :: lbrace :: (p ++ [rbrace])))) =
      .ok (JValue.str (String.mk ('$' :: lbrace :: (p ++ [rbrace])))) := by
  have hres : resolverGet root p = .ok JValue.null := by
    rw [resolverGet_plain root p hpipe hq, hget]
  have htest : ConfigValueReferenceResolver.test
      (String.mk ('$' :: lbrace :: (p ++ [rbrace]))).data = true := by
    have := @test_true_of_ref [] p [] (by simp) (by simp) hrb
    simpa using this
  simp only [Config.traversal, htest, if_true,
    resolver_single_ref root p JValue.null hrb hne hres]
  rfl

/-- Claim C10, witness: `{exp: "${k}", k: null}` keeps the leaf `"${k}"`. -/
theorem claim10_witness :
    Config.traversal (JValue.obj [("exp", JValue.str "$\x7bk\x7d"), ("k", JValue.null)]) 2
        (JValue.str "$\x7bk\x7d")
      = .ok (JValue.str "$\x7bk\x7d") := by
  have h := claim10_theorem
    (JValue.obj [("exp", JValue.str "$\x7bk\x7d"), ("k", JValue.null)])
    ['k'] 0 (by decide) (by decide) (by decide) (by decide) rfl
  simpa using h

/-! ## Claim C6: type preservation vs string coercion -/

theorem string_data_append (a b : String) : (a ++ b).data = a.data ++ b.data := rfl

theorem combineItems_not_composite {v : JValue} (r : JValue) (rest : List JValue)
    (h : v.isComposite = false) :
    combineItems r (v :: rest) =
      combineItems (JValue.str (pyStr r ++ pyStr v)) rest := by
  cases v <;> simp [JValue.isComposite] at h ⊢ <;> rfl

/-- The single-pass resolver on `lit1 ++ "${" ++ p ++ "}" ++ lit2` with both
literal parts nonempty and a non-composite referenced value. -/
theorem resolver_mixed (root : JValue) (lit1 p lit2 : List Char) (v : JValue)
    (h1 : '$' ∉ lit1) (h1ne : lit1 ≠ []) (hp : rbrace ∉ p) (hpne : p ≠ [])
    (hres : resolverGet root p = .ok v) (h2 : '$' ∉ lit2) (h2ne : lit2 ≠ [])
    (hcomp : v.isComposite = false) :
    ConfigValueReferenceResolver.resolve root
        (String.mk (lit1 ++ '$' :: lbrace :: (p ++ rbrace :: lit2))) =
      .ok (JValue.str ((String.mk lit1 ++ pyStr v) ++ String.mk lit2)) := by
  rw [ConfigValueReferenceResolver.resolve,
    show (String.mk (lit1 ++ '$' :: lbrace :: (p ++ rbrace :: lit2))).data
      = lit1 ++ '$' :: lbrace :: (p ++ rbrace :: lit2) from rfl,
    parseLeaf_ref root lit1 p lit2 v h1 hp hpne hres h2,
    flushAcc, if_neg h1ne, flushAcc, if_neg h2ne]
  simp only [List.cons_append, List.nil_append]
  rw [combineItems_not_composite _ _ hcomp]
  rfl

/-- Processing a string leaf that is exactly one `${p}` reference: the
referenced value is returned with its native type, provided it is non-null
and placeholder-free. -/
theorem single_ref_traversal (root : JValue) (p : List Char) (v : JValue)
    (fuel : Nat) (hne : p ≠ []) (hrb : rbrace ∉ p) (hpipe : '|' ∉ p)
    (hq : '?' ∉ p) (hget : Config.get1 root (String.mk p) = .ok v)
    (hnull : v.isNull = false) (hnd : NoDollarJ v = true)
    (hsz : sizeOf v ≤ fuel) :
    Config.traversal root (fuel + 1)
        (JValue.str (String.mk ('$' :: lbrace :: (p ++ [rbrace])))) = .ok v := by
  have hres : resolverGet root p = .ok v := by
    rw [resolverGet_plain root p hpipe hq, hget]
  have htest : ConfigValueReferenceResolver.test
      (String.mk ('$' :: lbrace :: (p ++ [rbrace]))).data = true := by
    have := @test_true_of_ref [] p [] (by simp) (by simp) hrb
    simpa using this
  simp only [Config.traversal, htest, if_true,
    resolver_single_ref root p v hrb hne hres,
    noDollar_traversal root (sizeOf v) v fuel le_rfl hnd hsz]
  simp [hnull]

/-- Rebuilding a two-entry dict node from the traversals of its values. -/
theorem traversal_obj_two (root : JValue) (f : Nat) (k1 k2 : String)
    (v1 v2 w1 w2 : JValue) (h1 : Config.traversal root f v1 = .ok w1)
    (h2 : Config.traversal root f v2 = .ok w2) :
    Config.traversal root (f + 1) (JValue.obj [(k1, v1), (k2, v2)]) =
      .ok (JValue.obj [(k1, w1), (k2, w2)]) := by
  simp only [Config.traversal, List.mapM_cons, List.mapM_nil, h1, h2]
  rfl

/-- A string leaf matching no resolver passes through unchanged. -/
theorem traversal_str_pass (root : JValue) (f : Nat) (s : String)
    (htest : ConfigValueReferenceResolver.test s.data = false) :
    Config.traversal root (f + 1) (JValue.str s) = .ok (JValue.str s) := by
  simp only [Config.traversal, htest]
  simp

/-- One full step of the string-leaf logic of resolve's traversal. -/
theorem traversal_str_step (root : JValue) (f : Nat) (s : String) (w w2 : JValue)
    (htest : ConfigValueReferenceResolver.test s.data = true)
    (hres : ConfigValueReferenceResolver.resolve root s = .ok w)
    (htrav : Config.traversal root f w = .ok w2) :
    Config.traversal root (f + 1) (JValue.str s) =
      .ok (if w2.isNull then JValue.str s else w2) := by
  simp only [Config.traversal, htest, if_true, hres, htrav]

/--
Claim C6: during resolve(), a string leaf that is exactly one `${p}` reference
preserves the referenced value's native type in the output tree (first
conjunct, over arbitrary placeholder-free non-null values, of any type); a
leaf mixing literal text with a reference yields the concatenation of the
components coerced through `str()` (second conjunct); and on the spec's
canonical example shape `{exp: "${foo}", foo: v}` the full resolve() yields
`{exp: v, foo: v}` (third conjunct).
-/
theorem claim6_theorem :
    (∀ (root : JValue) (p : List Char) (v : JValue) (fuel : Nat),
      p ≠ [] → rbrace ∉ p → '|' ∉ p → '?' ∉ p →
      Config.get1 root (String.mk p) = .ok v → v.isNull = false →
      NoDollarJ v = true → sizeOf v ≤ fuel →
      Config.traversal root (fuel + 1)
          (JValue.str (String.mk ('$' :: lbrace :: (p ++ [rbrace])))) = .ok v) ∧
    (∀ (root : JValue) (lit1 p lit2 : List Char) (v : JValue) (fuel : Nat),
      '$' ∉ lit1 → rbrace ∉ lit1 → lit1 ≠ [] → p ≠ [] → rbrace ∉ p →
      '|' ∉ p → '?' ∉ p → '$' ∉ lit2 → lit2 ≠ [] →
      Config.get1 root (String.mk p) = .ok v → v.isComposite = false →
      '$' ∉ (pyStr v).data →
      Config.traversal root (fuel + 2)
          (JValue.str (String.mk (lit1 ++ '$' :: lbrace :: (p ++ rbrace :: lit2)))) =
        .ok (JValue.str ((String.mk lit1 ++ pyStr v) ++ String.mk lit2))) ∧
    (∀ (v : JValue) (fuel : Nat),
      NoDollarJ v = true → v.isNull = false → sizeOf v ≤ fuel →
      Config.resolve (JValue.obj [("exp", JValue.str "$\x7bfoo\x7d"), ("foo", v)])
          (fuel + 2) =
        .ok (JValue.obj [("exp", v), ("foo", v)])) := by
  refine ⟨?_, ?_, ?_⟩
  · intro root p v fuel hne hrb hpipe hq hget hnull hnd hsz
    exact single_ref_traversal root p v fuel hne hrb hpipe hq hget hnull hnd hsz
  · intro root lit1 p lit2 v fuel h1 hrb1 h1ne hpne hrbp hpipe hq h2 h2ne hget hcomp hdv
    have hres : resolverGet root p = .ok v := by
      rw [resolverGet_plain root p hpipe hq, hget]
    have htest : ConfigValueReferenceResolver.test
        (String.mk (lit1 ++ '$' :: lbrace :: (p ++ rbrace :: lit2))).data = true := by
      have := @test_true_of_ref lit1 p lit2 h1 hrb1 hrbp
      simpa using this
    have hnores : '$' ∉ ((String.mk lit1 ++ pyStr v) ++ String.mk lit2).data := by
      rw [string_data_append, string_data_append]
      intro hmem
      rcases List.mem_append.1 hmem with hx | hx
      · rcases List.mem_append.1 hx with hy | hy
        · exact h1 hy
        · exact hdv hy
      · exact h2 hx
    simp only [Config.traversal, htest, if_true,
      resolver_mixed root lit1 p lit2 v h1 h1ne hrbp hpne hres h2 h2ne hcomp,
      test_false_of_no_dollar hnores]
    rfl
  · intro v fuel hnd hnull hsz
    have hget : Config.get1
        (JValue.obj [("exp", JValue.str "$\x7bfoo\x7d"), ("foo", v)])
        (String.mk ['f', 'o', 'o']) = .ok v := by
      simp only [Config.get1, Config.get,
        show splitPath (String.mk ['f', 'o', 'o']) = [['f', 'o', 'o']] from rfl,
        traverse, lookupJ]
      rw [if_neg (by decide), if_pos (by decide)]
      simp [hnull, traverse]
    have hexp := single_ref_traversal
      (JValue.obj [("exp", JValue.str "$\x7bfoo\x7d"), ("foo", v)])
      ['f', 'o', 'o'] v fuel (by decide) (by decide) (by decide) (by decide)
      hget hnull hnd hsz
    have hfoo : Config.traversal
        (JValue.obj [("exp", JValue.str "$\x7bfoo\x7d"), ("foo", v)]) (fuel + 1) v
        = .ok v :=
      noDollar_traversal _ (sizeOf v) v (fuel + 1) le_rfl hnd
        (le_trans hsz (Nat.le_succ _))
    exact traversal_obj_two _ (fuel + 1) "exp" "foo" _ v v v hexp hfoo

/-- Claim C6, witness at concrete inputs: a dict-valued reference keeps its
type, and `"a-${foo}-b"` with `foo = 123` resolves to `"a-123-b"`. -/
theorem claim6_witness :
    Config.traversal (JValue.obj [("exp", JValue.str "$\x7bfoo\x7d"),
        ("foo", JValue.obj [("bar", JValue.num 5)])])
        (sizeOf (JValue.obj [("bar", JValue.num 5)]) + 1)
        (JValue.str (String.mk ('$' :: lbrace :: (['f', 'o', 'o'] ++ [rbrace]))))
      = .ok (JValue.obj [("bar", JValue.num 5)]) ∧
    Config.traversal (JValue.obj [("exp", JValue.str "a-$\x7bfoo\x7d-b"),
        ("foo", JValue.num 123)]) 3
        (JValue.str (String.mk (['a', '-'] ++ '$' :: lbrace ::
          (['f', 'o', 'o'] ++ rbrace :: ['-', 'b']))))
      = .ok (JValue.str ((String.mk ['a', '-'] ++ pyStr (JValue.num 123))
          ++ String.mk ['-', 'b'])) ∧
    Config.resolve (JValue.obj [("exp", JValue.str "$\x7bfoo\x7d"),
        ("foo", JValue.num 123)]) (sizeOf (JValue.num 123) + 2)
      = .ok (JValue.obj [("exp", JValue.num 123), ("foo", JValue.num 123)]) := by
  refine ⟨?_, ?_, ?_⟩
  · exact claim6_theorem.1 (JValue.obj [("exp", JValue.str "$\x7bfoo\x7d"),
      ("foo", JValue.obj [("bar", JValue.num 5)])]) ['f', 'o', 'o']
      (JValue.obj [("bar", JValue.num 5)]) _
      (by decide) (by decide) (by decide) (by decide) rfl rfl rfl le_rfl
  · exact claim6_theorem.2.1 (JValue.obj [("exp", JValue.str "a-$\x7bfoo\x7d-b"),
      ("foo", JValue.num 123)]) ['a', '-'] ['f', 'o', 'o'] ['-', 'b']
      (JValue.num 123) 1
      (by decide) (by decide) (by decide) (by decide) (by decide) (by decide)
      (by decide) (by decide) (by decide) rfl rfl (by decide)
  · exact claim6_theorem.2.2 (JValue.num 123) _ rfl rfl le_rfl

/-! ## Claim C5: the $$-escape and re-resolution -/

/-- The single-pass resolver turns the leaf `"$${p}"` into the literal string
`"${p}"`: the escape yields `$` and the rest of the leaf is plain text. -/
theorem resolver_escape_ref (root : JValue) (p : List Char) (hd : '$' ∉ p) :
    ConfigValueReferenceResolver.resolve root
        (String.mk ('$' :: '$' :: lbrace :: (p ++ [rbrace]))) =
      .ok (JValue.str (String.mk ('$' :: lbrace :: (p ++ [rbrace])))) := by
  have hnod : '$' ∉ lbrace :: (p ++ [rbrace]) := by
    intro hmem
    rcases List.mem_cons.1 hmem with h1 | h1
    · exact absurd h1 (by decide)
    · rcases List.mem_append.1 h1 with h2 | h2
      · exact hd h2
      · rcases List.mem_singleton.1 h2 with h3
        exact absurd h3 (by decide)
  rw [ConfigValueReferenceResolver.resolve,
    show (String.mk ('$' :: '$' :: lbrace :: (p ++ [rbrace]))).data
      = '$' :: '$' :: lbrace :: (p ++ [rbrace]) from rfl,
    parseLeaf, if_pos rfl, parseDollar, if_pos rfl,
    parseLeaf_no_dollar root (lbrace :: (p ++ [rbrace])) [] hnod,
    show flushAcc ([] ++ lbrace :: (p ++ [rbrace]))
      = [JValue.str (String.mk (lbrace :: (p ++ [rbrace])))] from by
      rw [List.nil_append, flushAcc, if_neg (by simp)]]
  rfl

/-- After the resolver substitutes `k` into `"a$$b-${k}"`, the resulting
leaf `'a' :: '$' :: 'b' :: '-' :: v` matches no resolver. -/
theorem test_false_abd {v : List Char} (hv : '$' ∉ v) :
    ConfigValueReferenceResolver.test ('a' :: '$' :: 'b' :: '-' :: v) = false := by
  have h1 : findSub ['$', lbrace] ('a' :: '$' :: 'b' :: '-' :: v) = none := by
    rw [findSub, if_neg (by simp [List.isPrefixOf]),
      findSub, if_neg (by simp [List.isPrefixOf, lbrace]),
      findSub, if_neg (by simp [List.isPrefixOf]),
      findSub, if_neg (by simp [List.isPrefixOf]),
      findSub_none_of_head_not_mem hv]
    rfl
  rw [ConfigValueReferenceResolver.test, h1]

/--
Claim C5 (amended): in the resolver's single pass, each `$$` produces a
literal `$` (first conjunct: `"$${p}"` becomes the literal string `"${p}"`),
and substitution of a subsequent `${...}` in the same string still takes
place with the escaped `$` surviving in the final output (second conjunct:
`"a$$b-${k}"` resolves to `"a$b-" ++ v`).  But `Config.resolve` re-feeds a
resolver result through the leaf logic, so when the escape yields a string
that is itself exactly one reference, a further pass substitutes it: a leaf
`"$${k}"` resolves to the value of `k` and the final output contains no
dollar sign (third conjunct).
-/
theorem claim5_theorem :
    (∀ (root : JValue) (p : List Char), '$' ∉ p →
      ConfigValueReferenceResolver.resolve root
          (String.mk ('$' :: '$' :: lbrace :: (p ++ [rbrace]))) =
        .ok (JValue.str (String.mk ('$' :: lbrace :: (p ++ [rbrace]))))) ∧
    (∀ (v : List Char) (fuel : Nat), '$' ∉ v →
      Config.resolve (JValue.obj [("exp", JValue.str "a$$b-$\x7bk\x7d"),
          ("k", JValue.str (String.mk v))]) (fuel + 3) =
        .ok (JValue.obj [("exp", JValue.str ("a$b-" ++ String.mk v)),
          ("k", JValue.str (String.mk v))])) ∧
    (∀ (v : List Char) (fuel : Nat), '$' ∉ v →
      Config.resolve (JValue.obj [("exp", JValue.str "$$\x7bk\x7d"),
          ("k", JValue.str (String.mk v))]) (fuel + 4) =
        .ok (JValue.obj [("exp", JValue.str (String.mk v)),
          ("k", JValue.str (String.mk v))])) := by
  refine ⟨resolver_escape_ref, ?_, ?_⟩
  · intro v fuel hv
    set root : JValue := JValue.obj [("exp", JValue.str "a$$b-$\x7bk\x7d"),
      ("k", JValue.str (String.mk v))] with hroot
    have hget : resolverGet root ['k'] = .ok (JValue.str (String.mk v)) := by
      rw [resolverGet_plain root ['k'] (by decide) (by decide)]
      simp only [hroot, Config.get1, Config.get,
        show splitPath (String.mk ['k']) = [['k']] from rfl, traverse, lookupJ]
      rw [if_neg (by decide), if_pos (by decide)]
      simp [traverse, JValue.isNull]
    have hresolver : ConfigValueReferenceResolver.resolve root "a$$b-$\x7bk\x7d"
        = .ok (JValue.str ("a$b-" ++ String.mk v)) := by
      rw [ConfigValueReferenceResolver.resolve,
        show ("a$$b-$\x7bk\x7d" : String).data
          = ['a'] ++ '$' :: ('$' :: 'b' :: '-' :: '$' :: lbrace :: 'k' :: rbrace :: []) from rfl,
        parseLeaf_prepend root ['a'] _ [] (by decide), List.nil_append,
        parseDollar, if_pos rfl,
        show ('b' :: '-' :: '$' :: lbrace :: 'k' :: rbrace :: [])
          = ['b', '-'] ++ '$' :: (lbrace :: 'k' :: rbrace :: []) from rfl,
        parseLeaf_prepend root ['b', '-'] _ [] (by decide), List.nil_append,
        parseDollar, if_neg (by decide), if_pos rfl,
        show ('k' :: rbrace :: []) = ['k'] ++ rbrace :: [] from rfl,
        parseRef_scan root [] ['k'] [] (by decide) (by decide), List.nil_append,
        hget]
      rfl
    have hpass : Config.traversal root (fuel + 1)
        (JValue.str ("a$b-" ++ String.mk v)) =
        .ok (JValue.str ("a$b-" ++ String.mk v)) :=
      traversal_str_pass root fuel ("a$b-" ++ String.mk v) (test_false_abd hv)
    have hleaf := traversal_str_step root (fuel + 1) "a$$b-$\x7bk\x7d"
      (JValue.str ("a$b-" ++ String.mk v)) (JValue.str ("a$b-" ++ String.mk v))
      rfl hresolver hpass
    have hk : Config.traversal root (fuel + 2) (JValue.str (String.mk v))
        = .ok (JValue.str (String.mk v)) :=
      traversal_str_pass root (fuel + 1) (String.mk v)
        (test_false_of_no_dollar hv)
    exact traversal_obj_two root (fuel + 2) "exp" "k" _ _ _ _ (by simpa using hleaf) hk
  · intro v fuel hv
    set root : JValue := JValue.obj [("exp", JValue.str "$$\x7bk\x7d"),
      ("k", JValue.str (String.mk v))] with hroot
    have hget : resolverGet root ['k'] = .ok (JValue.str (String.mk v)) := by
      rw [resolverGet_plain root ['k'] (by decide) (by decide)]
      simp only [hroot, Config.get1, Config.get,
        show splitPath (String.mk ['k']) = [['k']] from rfl, traverse, lookupJ]
      rw [if_neg (by decide), if_pos (by decide)]
      simp [traverse, JValue.isNull]
    have hinner : Config.traversal root (fuel + 1) (JValue.str (String.mk v))
        = .ok (JValue.str (String.mk v)) :=
      traversal_str_pass root fuel (String.mk v) (test_false_of_no_dollar hv)
    have htest : ConfigValueReferenceResolver.test
        (String.mk ('$' :: lbrace :: (['k'] ++ [rbrace]))).data = true := by
      have := @test_true_of_ref [] ['k'] []
        (by simp) (by simp) (by decide)
      simpa using this
    have href := traversal_str_step root (fuel + 1)
      (String.mk ('$' :: lbrace :: (['k'] ++ [rbrace])))
      (JValue.str (String.mk v)) (JValue.str (String.mk v)) htest
      (resolver_single_ref root ['k'] (JValue.str (String.mk v)) (by decide)
        (by decide) hget) hinner
    have hleaf := traversal_str_step root (fuel + 2) "$$\x7bk\x7d"
      (JValue.str (String.mk ('$' :: lbrace :: (['k'] ++ [rbrace]))))
      (JValue.str (String.mk v)) rfl
      (resolver_escape_ref root ['k'] (by decide)) (by simpa using href)
    have hk : Config.traversal root (fuel + 3) (JValue.str (String.mk v))
        = .ok (JValue.str (String.mk v)) :=
      traversal_str_pass root (fuel + 2) (String.mk v)
        (test_false_of_no_dollar hv)
    exact traversal_obj_two root (fuel + 3) "exp" "k" _ _ _ _ (by simpa using hleaf) hk

/-- Claim C5, witness of the amended theorem at concrete inputs. -/
theorem claim5_witness :
    ConfigValueReferenceResolver.resolve JValue.null
        (String.mk ('$' :: '$' :: lbrace :: (['k'] ++ [rbrace]))) =
      .ok (JValue.str (String.mk ('$' :: lbrace :: (['k'] ++ [rbrace])))) ∧
    Config.resolve (JValue.obj [("exp", JValue.str "a$$b-$\x7bk\x7d"),
        ("k", JValue.str (String.mk ['v']))]) 3 =
      .ok (JValue.obj [("exp", JValue.str ("a$b-" ++ String.mk ['v'])),
        ("k", JValue.str (String.mk ['v']))]) ∧
    Config.resolve (JValue.obj [("exp", JValue.str "$$\x7bk\x7d"),
        ("k", JValue.str (String.mk ['v']))]) 4 =
      .ok (JValue.obj [("exp", JValue.str (String.mk ['v'])),
        ("k", JValue.str (String.mk ['v']))]) :=
  ⟨claim5_theorem.1 JValue.null ['k'] (by decide),
   claim5_theorem.2.1 ['v'] 0 (by decide),
   claim5_theorem.2.2 ['v'] 0 (by decide)⟩

/--
Claim C5, counterexample to the claim as stated: resolving the leaf `"$${k}"`
with `k = "v"` yields `"v"` — the final output contains no literal dollar
sign, because resolve() re-processes the single-pass result `"${k}"` and
substitutes it.
-/
theorem claim5_cex :
    Config.resolve (JValue.obj [("exp", JValue.str "$$\x7bk\x7d"),
        ("k", JValue.str "v")]) 4 =
      .ok (JValue.obj [("exp", JValue.str "v"), ("k", JValue.str "v")]) ∧
    '$' ∉ ("v" : String).data :=
  ⟨rfl, by decide⟩

/-! ## Claim C4: the composite-substitution guard -/

/--
Claim C4 (amended): the resolver's concatenation loop raises the
`can not substitute composite type` ConfigException whenever a dict- or
list-valued item occurs among the items after the first (first conjunct: any
composite anywhere in the loop's item list fails); in particular a leaf
`lit ++ "${p}"` with composite `p`-value fails during resolve (second
conjunct).  The first component returned by `next(itr)` is never checked: a
leaf beginning with a composite-valued reference and followed by text is
instead coerced through `str()` (see the counterexample).
-/
theorem claim4_theorem :
    (∀ (first : JValue) (items : List JValue),
      (∃ x ∈ items, x.isComposite = true) →
      combineItems first items = .error (.configEx .compositeSubstitution)) ∧
    (∀ (root : JValue) (lit1 p : List Char) (v : JValue) (fuel : Nat),
      '$' ∉ lit1 → rbrace ∉ lit1 → lit1 ≠ [] → p ≠ [] → rbrace ∉ p →
      '|' ∉ p → '?' ∉ p →
      Config.get1 root (String.mk p) = .ok v → v.isComposite = true →
      Config.traversal root (fuel + 1)
          (JValue.str (String.mk (lit1 ++ '$' :: lbrace :: (p ++ rbrace :: [])))) =
        .error (.configEx .compositeSubstitution)) := by
  constructor
  · intro first items h
    induction items generalizing first with
    | nil => obtain ⟨x, hx, _⟩ := h; cases hx
    | cons x rest ih =>
      obtain ⟨x0, hx0, hc0⟩ := h
      cases hx : x.isComposite
      · rw [combineItems_not_composite _ _ hx]
        rcases List.mem_cons.1 hx0 with h1 | h1
        · rw [h1] at hc0; rw [hc0] at hx; cases hx
        · exact ih _ ⟨x0, h1, hc0⟩
      · cases x <;> simp [JValue.isComposite] at hx <;> rfl
  · intro root lit1 p v fuel h1 hrb1 h1ne hpne hrbp hpipe hq hget hcomp
    have hres : resolverGet root p = .ok v := by
      rw [resolverGet_plain root p hpipe hq, hget]
    have htest : ConfigValueReferenceResolver.test
        (String.mk (lit1 ++ '$' :: lbrace :: (p ++ rbrace :: []))).data = true := by
      have := @test_true_of_ref lit1 p [] h1 hrb1 hrbp
      simpa using this
    have hresolver : ConfigValueReferenceResolver.resolve root
        (String.mk (lit1 ++ '$' :: lbrace :: (p ++ rbrace :: []))) =
        .error (.configEx .compositeSubstitution) := by
      rw [ConfigValueReferenceResolver.resolve,
        show (String.mk (lit1 ++ '$' :: lbrace :: (p ++ rbrace :: []))).data
          = lit1 ++ '$' :: lbrace :: (p ++ rbrace :: []) from rfl,
        parseLeaf_ref root lit1 p [] v h1 hrbp hpne hres (by simp),
        flushAcc, if_neg h1ne]
      cases v <;> simp [JValue.isComposite] at hcomp <;> rfl
    simp only [Config.traversal, htest, if_true, hresolver]

/-- Claim C4, witness of the amended theorem. -/
theorem claim4_witness :
    combineItems JValue.null [JValue.str "x", JValue.obj [("a", JValue.num 1)]] =
      .error (.configEx .compositeSubstitution) ∧
    Config.traversal (JValue.obj [("exp", JValue.str "x-$\x7bfoo\x7d"),
        ("foo", JValue.obj [("a", JValue.num 1)])]) 1
        (JValue.str (String.mk (['x', '-'] ++ '$' :: lbrace ::
          (['f', 'o', 'o'] ++ rbrace :: [])))) =
      .error (.configEx .compositeSubstitution) :=
  ⟨claim4_theorem.1 JValue.null [JValue.str "x", JValue.obj [("a", JValue.num 1)]]
    ⟨JValue.obj [("a", JValue.num 1)], by simp, rfl⟩,
   claim4_theorem.2 (JValue.obj [("exp", JValue.str "x-$\x7bfoo\x7d"),
      ("foo", JValue.obj [("a", JValue.num 1)])]) ['x', '-'] ['f', 'o', 'o']
      (JValue.obj [("a", JValue.num 1)]) 0
      (by decide) (by decide) (by decide) (by decide) (by decide) (by decide)
      (by decide) rfl rfl⟩

/--
Claim C4, counterexample to the claim as stated: a composite-valued reference
in the *first* position of the leaf does not raise CompositeSubstitution;
`{exp: "${foo}-x", foo: [1]}` resolves to the stringified `"[1]-x"`.
-/
theorem claim4_cex :
    Config.resolve (JValue.obj [("exp", JValue.str "$\x7bfoo\x7d-x"),
        ("foo", JValue.arr [JValue.num 1])]) 4 =
      .ok (JValue.obj [("exp", JValue.str "[1]-x"),
        ("foo", JValue.arr [JValue.num 1])]) ∧
    Config.resolve (JValue.obj [("exp", JValue.str "$\x7bfoo\x7d-x"),
        ("foo", JValue.arr [JValue.num 1])]) 4 ≠
      .error (.configEx .compositeSubstitution) := by
  refine ⟨rfl, ?_⟩
  intro h
  exact nomatch h

/-! ## Decimal numerals round-trip through int() -/

theorem digitChar_isDigit : ∀ d : Nat, d < 10 → isDigitCh (digitChar d) = true := by
  decide

theorem digitChar_val : ∀ d : Nat, d < 10 → digitVal (digitChar d) = d := by
  decide

theorem natDecimalAux_all_digits :
    ∀ (fuel n : Nat), (natDecimalAux fuel n).all isDigitCh = true := by
  intro fuel
  induction fuel with
  | zero => intro n; rfl
  | succ fuel ih =>
    intro n
    rw [natDecimalAux]
    by_cases h : n < 10
    · rw [if_pos h]
      simp [digitChar_isDigit n h]
    · rw [if_neg h]
      simp only [List.all_append, ih (n / 10), Bool.true_and]
      simp [digitChar_isDigit (n % 10) (Nat.mod_lt n (by omega))]

theorem natDecimalAux_ne_nil (fuel n : Nat) (h : 0 < fuel) :
    natDecimalAux fuel n ≠ [] := by
  cases fuel with
  | zero => omega
  | succ fuel =>
    rw [natDecimalAux]
    by_cases hn : n < 10
    · simp [hn]
    · simp [hn]

theorem natDecimal_ne_nil (n : Nat) : natDecimal n ≠ [] :=
  natDecimalAux_ne_nil (n + 1) n (by omega)

theorem natDecimal_all_digits (n : Nat) : (natDecimal n).all isDigitCh = true :=
  natDecimalAux_all_digits (n + 1) n

theorem not_mem_natDecimal_of_not_digit {c : Char} (n : Nat)
    (hc : isDigitCh c = false) : c ∉ natDecimal n := by
  intro hmem
  have := List.all_eq_true.1 (natDecimal_all_digits n) c hmem
  rw [hc] at this
  cases this

theorem parseDigits_append :
    ∀ (xs ys : List Char) (acc : Nat),
      parseDigits acc (xs ++ ys) =
        match parseDigits acc xs with
        | some a => parseDigits a ys
        | none => none := by
  intro xs
  induction xs with
  | nil => intro ys acc; rfl
  | cons c rest ih =>
    intro ys acc
    rw [List.cons_append, parseDigits, parseDigits]
    by_cases h : isDigitCh c = true
    · rw [if_pos h, if_pos h, ih]
    · rw [if_neg h, if_neg h]

theorem parseDigits_append_some {xs : List Char} {acc a : Nat}
    (ys : List Char) (h : parseDigits acc xs = some a) :
    parseDigits acc (xs ++ ys) = parseDigits a ys := by
  rw [parseDigits_append, h]

theorem parseDigits_natDecimalAux :
    ∀ (fuel n acc : Nat), n < fuel →
      parseDigits acc (natDecimalAux fuel n) =
        some (acc * 10 ^ (natDecimalAux fuel n).length + n) := by
  intro fuel
  induction fuel with
  | zero => intro n acc h; omega
  | succ fuel ih =>
    intro n acc h
    rw [natDecimalAux]
    by_cases hn : n < 10
    · rw [if_pos hn, parseDigits, if_pos (digitChar_isDigit n hn), parseDigits,
        digitChar_val n hn]
      simp
    · rw [if_neg hn]
      have hdiv : n / 10 < fuel := by
        have h1 : n / 10 < n := Nat.div_lt_self (by omega) (by omega)
        omega
      rw [parseDigits_append_some _ (ih (n / 10) acc hdiv), parseDigits,
        if_pos (digitChar_isDigit (n % 10) (Nat.mod_lt n (by omega))), parseDigits,
        digitChar_val (n % 10) (Nat.mod_lt n (by omega))]
      have hmod := Nat.div_add_mod n 10
      simp only [List.length_append, List.length_cons, List.length_nil]
      congr 1
      rw [pow_succ]
      ring_nf
      omega

theorem pyParseInt_natDecimal (n : Nat) :
    pyParseInt (natDecimal n) = some (n : Int) := by
  cases hd : natDecimal n with
  | nil => exact absurd hd (natDecimal_ne_nil n)
  | cons c rest =>
    have hcd : isDigitCh c = true := by
      have := natDecimal_all_digits n
      rw [hd] at this
      exact (List.all_eq_true.1 this c (List.mem_cons_self _ _))
    have hc1 : ¬c = '-' := by
      intro hh; rw [hh] at hcd; cases hcd
    have hc2 : ¬c = '+' := by
      intro hh; rw [hh] at hcd; cases hcd
    rw [pyParseInt, if_neg hc1, if_neg hc2, ← hd, natDecimal,
      parseDigits_natDecimalAux (n + 1) n 0 (by omega)]
    simp

/-! ## C7: slice broadcast vs per-index access -/

theorem expandBrackets_no_bracket :
    ∀ cs : List Char, (∀ c ∈ cs, ¬c = '[') → ∀ ds,
      expandBrackets (cs ++ ds) = cs ++ expandBrackets ds := by
  intro cs
  induction cs with
  | nil => intro _ ds; rfl
  | cons c rest ih =>
    intro h ds
    simp only [List.cons_append, expandBrackets]
    rw [if_neg (h c (List.mem_cons_self _ _))]
    exact congrArg (fun t => c :: t)
      (ih (fun x hx => h x (List.mem_cons_of_mem _ hx)) ds)

theorem splitOnChar_ne_nil (sep : Char) : ∀ ds : List Char, splitOnChar sep ds ≠ [] := by
  intro ds
  cases ds with
  | nil => simp [splitOnChar]
  | cons c rest =>
    simp only [splitOnChar]
    split <;> simp

theorem splitOnChar_no_sep (sep : Char) :
    ∀ cs : List Char, (∀ c ∈ cs, ¬c = sep) → ∀ ds,
      splitOnChar sep (cs ++ ds) =
        (cs ++ (splitOnChar sep ds).headD []) :: (splitOnChar sep ds).tail := by
  intro cs
  induction cs with
  | nil =>
    intro _ ds
    simp only [List.nil_append]
    cases hsp : splitOnChar sep ds with
    | nil => exact absurd hsp (splitOnChar_ne_nil sep ds)
    | cons a t => rfl
  | cons c rest ih =>
    intro h ds
    simp only [List.cons_append, splitOnChar]
    rw [if_neg (h c (List.mem_cons_self _ _))]
    show (c :: (splitOnChar sep (rest ++ ds)).headD [])
          :: (splitOnChar sep (rest ++ ds)).tail
        = (c :: (rest ++ (splitOnChar sep ds).headD []))
          :: (splitOnChar sep ds).tail
    rw [ih (fun x hx => h x (List.mem_cons_of_mem _ hx)) ds]
    rfl

theorem splitOnChar_cons_sep (sep : Char) (ds : List Char) :
    splitOnChar sep (sep :: ds) = [] :: splitOnChar sep ds := by
  simp [splitOnChar]

/-- `splitPath` on the concrete slice key of the claim. -/
theorem splitPath_arr_slice :
    splitPath "arr[:].k" = [['a', 'r', 'r'], ['[', ':', ']'], ['k']] := rfl

/-- `splitPath` on an index key `arr[<digits>].k` with a symbolic digit block. -/
theorem splitPath_arr_idx (nd : List Char)
    (h : ∀ c ∈ nd, isDigitCh c = true) :
    splitPath ("arr[" ++ String.mk nd ++ "].k") =
      [['a', 'r', 'r'], '[' :: (nd ++ [']']), ['k']] := by
  have hnb : ∀ c ∈ nd, ¬c = '[' := by
    intro c hc hh
    have := h c hc
    rw [hh] at this
    exact absurd this (by decide)
  have hnd : ∀ c ∈ nd, ¬c = '.' := by
    intro c hc hh
    have := h c hc
    rw [hh] at this
    exact absurd this (by decide)
  have hdata : ("arr[" ++ String.mk nd ++ "].k").data
      = ['a', 'r', 'r'] ++ ('[' :: (nd ++ (']' :: '.' :: ['k']))) := by
    rw [String.data_append, String.data_append]
    show ['a', 'r', 'r', '['] ++ (nd ++ [']', '.', 'k']) = _
    simp
  have hexp : expandBrackets (("arr[" ++ String.mk nd ++ "].k").data)
      = ['a', 'r', 'r'] ++ ('.' :: '[' :: (nd ++ (']' :: '.' :: ['k']))) := by
    rw [hdata, expandBrackets_no_bracket ['a', 'r', 'r'] (by decide)]
    simp only [expandBrackets, if_pos rfl]
    rw [expandBrackets_no_bracket nd hnb]
    rfl
  rw [splitPath, hexp,
    splitOnChar_no_sep '.' ['a', 'r', 'r'] (by decide),
    splitOnChar_cons_sep]
  have hmid : '[' :: (nd ++ (']' :: '.' :: ['k']))
      = ('[' :: (nd ++ [']'])) ++ ('.' :: ['k']) := by simp
  rw [hmid, splitOnChar_no_sep '.' ('[' :: (nd ++ [']']))
      (by
        intro c hc
        rcases List.mem_cons.1 hc with h1 | h2
        · rw [h1]; decide
        · rcases List.mem_append.1 h2 with h3 | h4
          · exact hnd c h3
          · rw [List.mem_singleton.1 h4]; decide),
    splitOnChar_cons_sep]
  simp [splitOnChar]

/-- Every position of `List.range l.length` fetched with `getD` rebuilds `l`. -/
theorem range_map_getD :
    ∀ l : List JValue,
      (List.range l.length).map (fun j => l.getD j JValue.null) = l := by
  intro l
  induction l with
  | nil => rfl
  | cons a t ih =>
    rw [List.length_cons, List.range_succ_eq_map, List.map_cons, List.map_map]
    have hf : ((fun j => (a :: t).getD j JValue.null) ∘ Nat.succ)
        = fun j => t.getD j JValue.null := by
      funext j; rfl
    rw [hf, ih]
    rfl

/-- The full slice `l[:]` is the identity on lists. -/
theorem pySlice_full (l : List JValue) : pySlice l none none none = some l := by
  simp only [pySlice, Option.getD_none]
  rw [if_neg (by decide : ¬((1 : Int) = 0)), if_pos (by decide : (0 : Int) < 1)]
  have hcount : (if (0 : Int) < (l.length : Int)
      then (((l.length : Int) - 0 - 1) / 1 + 1).toNat else 0) = l.length := by
    split <;> omega
  rw [hcount]
  have hdo : (do
      let a ← List.range l.length
      pure ((a : Int))) = (List.range l.length).map (fun a : Nat => (a : Int)) := by
    show ((List.range l.length).flatMap fun a => [((a : Int))]) = _
    induction List.range l.length with
    | nil => rfl
    | cons x t ih => simp [ih]
  rw [hdo, List.map_map]
  have hf : ((fun j : Int => l.getD ((0 : Int) + j * 1).toNat JValue.null)
      ∘ (fun a : Nat => (a : Int))) = fun j : Nat => l.getD j JValue.null := by
    funext j
    show l.getD ((0 : Int) + (j : Int) * 1).toNat JValue.null
        = l.getD j JValue.null
    congr 1
    omega
  rw [hf, range_map_getD]

/-- The value stored under key `k` of a map element, if the element is a map
holding that key: the shape hypothesis of the slice-broadcast claim. -/
def extractK : JValue → Option JValue
  | JValue.obj xs => lookupJ "k" xs
  | _ => none

/-- One-step equation of `traverse` at a dict root. -/
theorem traverse_obj_cons (xs : List (String × JValue)) (path : List Char)
    (rest : List (List Char)) :
    traverse (JValue.obj xs) (path :: rest) =
      (match lookupJ (String.mk path) xs with
       | some v => traverse v rest
       | none => Except.error (PyErr.configEx ErrKind.keyNotFound)) := rfl

/-- One-step equation of `traverse` at a list root, with the `inner` let
expanded. -/
theorem traverse_arr_cons (l : List JValue) (path : List Char)
    (rest : List (List Char)) :
    traverse (JValue.arr l) (path :: rest) =
      (if path.head? = some '[' ∧ path.getLast? = some ']' then
        if sliceRegexMatch ((path.drop 1).dropLast) = true
            ∨ (path.drop 1).dropLast = [] then
          match sliceParams ((path.drop 1).dropLast) with
          | none => Except.error (PyErr.configEx ErrKind.illegalSlice)
          | some (a, b, c) =>
            match pySlice l a b c with
            | none => Except.error (PyErr.configEx ErrKind.illegalSlice)
            | some elems => (elems.mapM (fun x => traverse x rest)).map JValue.arr
        else
          match pyParseInt ((path.drop 1).dropLast) with
          | none => Except.error (PyErr.configEx ErrKind.illegalSlice)
          | some i =>
            match pyIndex l i with
            | none => Except.error (PyErr.configEx ErrKind.indexOutOfRange)
            | some v => traverse v rest
      else Except.error (PyErr.configEx ErrKind.keyNotFound)) := rfl

/-- `traverse` on a `[:]` segment broadcasts the remaining path over the list. -/
theorem traverse_arr_slice_all (l : List JValue) (rest : List (List Char)) :
    traverse (JValue.arr l) (['[', ':', ']'] :: rest) =
      (match pySlice l none none none with
       | none => Except.error (PyErr.configEx ErrKind.illegalSlice)
       | some elems => (elems.mapM (fun x => traverse x rest)).map JValue.arr) := rfl

/-- `traverse` on a `[<digits>]` segment reduces to a `pyIndex` lookup. -/
theorem traverse_arr_idx (l : List JValue) (nd : List Char)
    (rest : List (List Char)) (hne : nd ≠ [])
    (hdig : ∀ c ∈ nd, isDigitCh c = true)
    {i : Int} (hp : pyParseInt nd = some i) :
    traverse (JValue.arr l) (('[' :: (nd ++ [']'])) :: rest) =
      (match pyIndex l i with
       | none => Except.error (PyErr.configEx ErrKind.indexOutOfRange)
       | some v => traverse v rest) := by
  have hlast : ('[' :: (nd ++ [']'])).getLast? = some ']' := by
    rw [show ('[' :: (nd ++ [']'])) = ('[' :: nd) ++ [']'] by simp]
    exact List.getLast?_concat _
  have hdrop : ((('[' :: (nd ++ [']'])).drop 1).dropLast) = nd := by
    show (nd ++ [']']).dropLast = nd
    exact List.dropLast_concat
  have hsr : sliceRegexMatch nd = false := by
    have hcount : nd.count ':' = 0 := by
      rw [List.count_eq_zero]
      intro hmem
      have := hdig ':' hmem
      exact absurd this (by decide)
    rw [sliceRegexMatch, hcount]
    simp
  have hcond : ¬(sliceRegexMatch nd = true ∨ nd = []) := by
    rintro (h1 | h2)
    · rw [hsr] at h1; cases h1
    · exact hne h2
  rw [traverse_arr_cons, if_pos (⟨rfl, hlast⟩ :
      ('[' :: (nd ++ [']'])).head? = some '['
        ∧ ('[' :: (nd ++ [']'])).getLast? = some ']'),
    hdrop, if_neg hcond, hp]

/-- Natural-number indexing `l[i]` for `i < len(l)`. -/
theorem pyIndex_nat (l : List JValue) (idx : Nat) (h : idx < l.length) :
    pyIndex l (idx : Int) = some (l.getD idx JValue.null) := by
  have h0 : ¬((idx : Int) < 0) := by omega
  have h1 : (0 : Int) ≤ (idx : Int) ∧ (idx : Int) < (l.length : Int) := by
    constructor <;> omega
  simp only [pyIndex]
  rw [if_neg h0, if_pos h1]
  congr 1

/-- A `k`-lookup step of `traverse` on an element with `extractK m = some v`. -/
theorem traverse_k_of_extractK {m v : JValue} (h : extractK m = some v) :
    traverse m [['k']] = Except.ok v := by
  cases m with
  | obj xs =>
    have hk : lookupJ "k" xs = some v := h
    rw [traverse_obj_cons, show String.mk ['k'] = "k" from rfl, hk]
    rfl
  | null => exact nomatch h
  | bool b => exact nomatch h
  | num n => exact nomatch h
  | str s => exact nomatch h
  | arr l => exact nomatch h

/-- Element-wise `traverse … [['k']]` over a list of maps. -/
theorem mapM_traverse_k :
    ∀ ms vs : List JValue, ms.map extractK = vs.map some →
      ms.mapM (fun x => traverse x [['k']]) = Except.ok vs := by
  intro ms
  induction ms with
  | nil =>
    intro vs h
    cases vs with
    | nil => rfl
    | cons v vs => exact nomatch h
  | cons m ms ih =>
    intro vs h
    cases vs with
    | nil => exact nomatch h
    | cons v vs =>
      rw [List.map_cons, List.map_cons] at h
      injection h with h1 h2
      rw [List.mapM_cons, traverse_k_of_extractK h1, ih vs h2]
      rfl

/-- Pointwise reading of the shape hypothesis. -/
theorem extractK_getD :
    ∀ ms vs : List JValue, ms.map extractK = vs.map some →
      ∀ i, i < ms.length →
        extractK (ms.getD i JValue.null) = some (vs.getD i JValue.null) := by
  intro ms
  induction ms with
  | nil =>
    intro vs h i hi
    exact absurd hi (by simp)
  | cons m ms ih =>
    intro vs h i hi
    cases vs with
    | nil => exact nomatch h
    | cons v vs =>
      rw [List.map_cons, List.map_cons] at h
      injection h with h1 h2
      cases i with
      | zero => exact h1
      | succ j =>
        have hj : j < ms.length := by simpa using hi
        exact ih vs h2 j hj

theorem map_some_length {ms vs : List JValue}
    (h : ms.map extractK = vs.map some) : vs.length = ms.length := by
  have := congrArg List.length h
  simpa using this.symm

/-- `get`'s null-to-default replacement is the identity when the default is
null. -/
theorem ifNull_id (v : JValue) :
    (if v.isNull then JValue.null else v) = v := by
  cases v <;> rfl

/--
C7: for a sequence of maps each containing key `k` stored at path `arr`
(element `i` of `ms` is a map whose `k` entry is `vs[i]`),
`get("arr[:].k")` returns the sequence `vs`, whose length is that of the
stored sequence and whose `i`-th element equals the result of
`get("arr[i].k")` for every index `i`: the slice applies the remaining path
steps independently to every element.
-/
theorem claim7_theorem (ms vs : List JValue)
    (h : ms.map extractK = vs.map some) :
    Config.get1 (JValue.obj [("arr", JValue.arr ms)]) "arr[:].k"
        = Except.ok (JValue.arr vs) ∧
    vs.length = ms.length ∧
    (∀ i, i < ms.length →
      Config.get1 (JValue.obj [("arr", JValue.arr ms)])
          ("arr[" ++ String.mk (natDecimal i) ++ "].k")
        = Except.ok (vs.getD i JValue.null)) := by
  refine ⟨?_, map_some_length h, ?_⟩
  · have ht : traverse (JValue.obj [("arr", JValue.arr ms)])
        [['a', 'r', 'r'], ['[', ':', ']'], ['k']] = Except.ok (JValue.arr vs) := by
      rw [traverse_obj_cons]
      show traverse (JValue.arr ms) [['[', ':', ']'], ['k']] = _
      rw [traverse_arr_slice_all, pySlice_full]
      show (ms.mapM (fun x => traverse x [['k']])).map JValue.arr
          = Except.ok (JValue.arr vs)
      rw [mapM_traverse_k ms vs h]
      rfl
    rw [Config.get1, Config.get, splitPath_arr_slice, ht]
    rfl
  · intro i hi
    have hnd : ∀ c ∈ natDecimal i, isDigitCh c = true :=
      fun c hc => List.all_eq_true.1 (natDecimal_all_digits i) c hc
    have ht : traverse (JValue.obj [("arr", JValue.arr ms)])
        [['a', 'r', 'r'], '[' :: (natDecimal i ++ [']']), ['k']]
        = Except.ok (vs.getD i JValue.null) := by
      rw [traverse_obj_cons]
      show traverse (JValue.arr ms) [('[' :: (natDecimal i ++ [']'])), ['k']] = _
      rw [traverse_arr_idx ms (natDecimal i) [['k']] (natDecimal_ne_nil i) hnd
          (pyParseInt_natDecimal i),
        pyIndex_nat ms i hi]
      exact traverse_k_of_extractK (extractK_getD ms vs h i hi)
    rw [Config.get1, Config.get, splitPath_arr_idx (natDecimal i) hnd, ht]
    show Except.ok (if (vs.getD i JValue.null).isNull then JValue.null
        else vs.getD i JValue.null) = _
    rw [ifNull_id]

theorem claim7_witness :
    [JValue.obj [("k", JValue.num 5)], JValue.obj [("k", JValue.null)],
        JValue.obj [("k", JValue.str "x")]].map extractK
      = [JValue.num 5, JValue.null, JValue.str "x"].map some ∧
    Config.get1 (JValue.obj [("arr", JValue.arr
          [JValue.obj [("k", JValue.num 5)], JValue.obj [("k", JValue.null)],
           JValue.obj [("k", JValue.str "x")]])]) "arr[:].k"
      = Except.ok (JValue.arr [JValue.num 5, JValue.null, JValue.str "x"]) ∧
    (1 : Nat) < 3 ∧
    Config.get1 (JValue.obj [("arr", JValue.arr
          [JValue.obj [("k", JValue.num 5)], JValue.obj [("k", JValue.null)],
           JValue.obj [("k", JValue.str "x")]])])
        ("arr[" ++ String.mk (natDecimal 1) ++ "].k")
      = Except.ok JValue.null := by
  refine ⟨rfl, ?_, by decide, ?_⟩
  · exact (claim7_theorem
      [JValue.obj [("k", JValue.num 5)], JValue.obj [("k", JValue.null)],
       JValue.obj [("k", JValue.str "x")]]
      [JValue.num 5, JValue.null, JValue.str "x"] rfl).1
  · exact (claim7_theorem
      [JValue.obj [("k", JValue.num 5)], JValue.obj [("k", JValue.null)],
       JValue.obj [("k", JValue.str "x")]]
      [JValue.num 5, JValue.null, JValue.str "x"] rfl).2.2 1 (by decide)

end Pyboost
